import Mathlib

/-!
Verification development for a console Minesweeper implementation
(`main.go`).  The grid engine is embedded shallowly: the Go `Board`
struct becomes a Lean structure over lists, the recursive flood fill
`RevealCell` becomes a fuel-indexed function (with fuel
`unrevealedCount + 1`, proved sufficient), and `rand.Shuffle` is
modelled by an explicit permutation parameter.
-/

set_option maxHeartbeats 1000000
set_option maxRecDepth 100000

namespace Mine

/-- Go `Cell` struct: `IsMine`, `AdjMines`, `Revealed`, `Flagged`. -/
structure Cell where
  IsMine : Bool
  AdjMines : Nat
  Revealed : Bool
  Flagged : Bool
deriving DecidableEq, Repr

/-- The Go zero value of `Cell`, produced by `make([]Cell, width)`. -/
def defaultCell : Cell := ⟨false, 0, false, false⟩

/-- Go `Board` struct: dimensions plus a row-major cell matrix
(`Cells[y][x]`). -/
structure Board where
  Width : Nat
  Height : Nat
  Cells : List (List Cell)
deriving DecidableEq, Repr

/-- Row `y` of the board (`b.Cells[y]`). -/
def getRow (b : Board) (y : Int) : List Cell := b.Cells.getD y.toNat []

/-- `b.Cells[y][x]`.  All reads in the Go code are guarded by
`isValidCell`, so the default is never observed on well-formed boards. -/
def getCell (b : Board) (x y : Int) : Cell := (getRow b y).getD x.toNat defaultCell

/-- In-place update `b.Cells[y][x] = c`. -/
def setCell (b : Board) (x y : Int) (c : Cell) : Board :=
  { b with Cells := b.Cells.set y.toNat ((getRow b y).set x.toNat c) }

/-- Go `isValidCell`: `x >= 0 && x < b.Width && y >= 0 && y < b.Height`. -/
def isValidCell (b : Board) (x y : Int) : Prop :=
  0 ≤ x ∧ x < (b.Width : Int) ∧ 0 ≤ y ∧ y < (b.Height : Int)

instance (b : Board) (x y : Int) : Decidable (isValidCell b x y) := by
  unfold isValidCell; infer_instance

/-- The cell matrix really has the declared dimensions (true of every
board built by `NewBoard`, maintained by all operations). -/
def WF (b : Board) : Prop :=
  b.Cells.length = b.Height ∧ ∀ row ∈ b.Cells, row.length = b.Width

instance (b : Board) : Decidable (WF b) := by
  unfold WF; infer_instance

/-- The nine offset pairs `(i, j)` with `i, j ∈ {-1, 0, 1}`, in the
iteration order of the Go nested loops (outer `i`, inner `j`). -/
def neighborOffsets : List (Int × Int) :=
  [(-1, -1), (-1, 0), (-1, 1), (0, -1), (0, 0), (0, 1), (1, -1), (1, 0), (1, 1)]

/-- Go `countAdjMines`: count mines over the eight neighbors (the
`(0,0)` offset is skipped by `continue`), clipped to the board. -/
def countAdjMines (b : Board) (x y : Int) : Nat :=
  neighborOffsets.countP fun d =>
    !(d.1 == 0 && d.2 == 0) &&
      (decide (isValidCell b (x + d.1) (y + d.2)) &&
        (getCell b (x + d.1) (y + d.2)).IsMine)

/-- All coordinate pairs of the board, row by row (`y` outer, `x`
inner) — both the Go `positions` slice in `placeMines` and the
iteration order of `calculateAdjMines`. -/
def allPositions (b : Board) : List (Int × Int) :=
  ((List.range b.Height).map fun (y : Nat) =>
    (List.range b.Width).map fun (x : Nat) => ((x : Int), (y : Int))).flatten

/-- Go `calculateAdjMines`: for every non-mine cell store its adjacent
mine count. -/
def calculateAdjMines (b : Board) : Board :=
  (allPositions b).foldl
    (fun bd p =>
      if (getCell bd p.1 p.2).IsMine then bd
      else setCell bd p.1 p.2 { getCell bd p.1 p.2 with AdjMines := countAdjMines bd p.1 p.2 })
    b

/-- Go `placeMines`.  The number of mines is capped at
`width*height*5/9`; the random shuffle of the positions slice is
modelled by the `shuffle` parameter (theorems assume its output is a
permutation of its input, which is all `rand.Shuffle` guarantees). -/
def placeMines (shuffle : List (Int × Int) → List (Int × Int)) (b : Board) (mines : Nat) :
    Board :=
  let maxMines := b.Width * b.Height * 5 / 9
  let m := if mines > maxMines then maxMines else mines
  ((shuffle (allPositions b)).take m).foldl
    (fun bd p => setCell bd p.1 p.2 { getCell bd p.1 p.2 with IsMine := true }) b

/-- The all-default matrix allocated at the top of Go `NewBoard`. -/
def initBoard (width height : Nat) : Board :=
  ⟨width, height, List.replicate height (List.replicate width defaultCell)⟩

/-- Go `NewBoard`: allocate, place mines, compute adjacency counts. -/
def NewBoard (shuffle : List (Int × Int) → List (Int × Int))
    (width height mines : Nat) : Board :=
  calculateAdjMines (placeMines shuffle (initBoard width height) mines)

/-- Number of unrevealed cells — the termination measure for the flood
fill (not itself part of the Go code). -/
def unrevealedCount (b : Board) : Nat :=
  (allPositions b).countP fun p => !(getCell b p.1 p.2).Revealed

/-- Number of cells with `IsMine` set. -/
def mineCount (b : Board) : Nat :=
  (allPositions b).countP fun p => (getCell b p.1 p.2).IsMine

/-- The Go statement `b.Cells[y][x].Revealed = true`. -/
def setRevealed (b : Board) (x y : Int) : Board :=
  setCell b x y { getCell b x y with Revealed := true }

/-- Go `RevealCell`, indexed by fuel: no-op on out-of-bounds or
already-revealed cells; otherwise mark revealed, report a mine hit,
and flood-fill the eight neighbors when the cell's count is zero.
`RevealCell` below runs it with provably sufficient fuel. -/
def revealFuel : Nat → Board → Int → Int → Board × Bool
  | 0, b, _, _ => (b, false)
  | f + 1, b, x, y =>
    if ¬ isValidCell b x y ∨ (getCell b x y).Revealed then (b, false)
    else
      let b1 := setRevealed b x y
      if (getCell b1 x y).IsMine then (b1, true)
      else if (getCell b1 x y).AdjMines = 0 then
        (neighborOffsets.foldl (fun acc d => (revealFuel f acc (x + d.1) (y + d.2)).1) b1,
          false)
      else (b1, false)

/-- Go `RevealCell`: the fuel `unrevealedCount b + 1` is sufficient
(each recursive level first reveals a fresh cell, so the recursion
depth is bounded by the number of unrevealed cells). -/
def RevealCell (b : Board) (x y : Int) : Board × Bool :=
  revealFuel (unrevealedCount b + 1) b x y

/-- Go `FlagCell`: toggle the flag of an in-bounds unrevealed cell. -/
def FlagCell (b : Board) (x y : Int) : Board :=
  if ¬ isValidCell b x y ∨ (getCell b x y).Revealed then b
  else setCell b x y { getCell b x y with Flagged := !(getCell b x y).Flagged }

/-- Go `CheckWin`: true iff no safe cell is unrevealed. -/
def CheckWin (b : Board) : Bool :=
  b.Cells.all fun row => row.all fun c => c.IsMine || c.Revealed

/-! ### Basic access lemmas -/

theorem setCell_Width (b : Board) (x y : Int) (c : Cell) :
    (setCell b x y c).Width = b.Width := rfl

theorem setCell_Height (b : Board) (x y : Int) (c : Cell) :
    (setCell b x y c).Height = b.Height := rfl

theorem isValidCell_setCell (b : Board) (x y x' y' : Int) (c : Cell) :
    isValidCell (setCell b x y c) x' y' ↔ isValidCell b x' y' := Iff.rfl

theorem getCell_congr_toNat (b : Board) {x y x' y' : Int}
    (hx : x.toNat = x'.toNat) (hy : y.toNat = y'.toNat) :
    getCell b x y = getCell b x' y' := by
  unfold getCell getRow
  rw [hx, hy]

theorem valid_eq_of_toNat {b : Board} {x y x' y' : Int}
    (hv : isValidCell b x y) (hv' : isValidCell b x' y')
    (hx : x.toNat = x'.toNat) (hy : y.toNat = y'.toNat) : x = x' ∧ y = y' := by
  obtain ⟨h1, _, h3, _⟩ := hv
  obtain ⟨h1', _, h3', _⟩ := hv'
  constructor
  · rw [← Int.toNat_of_nonneg h1, ← Int.toNat_of_nonneg h1', hx]
  · rw [← Int.toNat_of_nonneg h3, ← Int.toNat_of_nonneg h3', hy]

theorem toNat_lt_of_valid {b : Board} {x y : Int} (hv : isValidCell b x y) :
    x.toNat < b.Width ∧ y.toNat < b.Height := by
  obtain ⟨h1, h2, h3, h4⟩ := hv
  exact ⟨(Int.toNat_lt h1).mpr h2, (Int.toNat_lt h3).mpr h4⟩

theorem getRow_eq_getElem {b : Board} {y : Int} (hylt : y.toNat < b.Cells.length) :
    getRow b y = b.Cells[y.toNat] := by
  unfold getRow
  exact List.getD_eq_getElem _ _ hylt

theorem getRow_setCell_ne {b : Board} {x y y' : Int} {c : Cell}
    (hy : y.toNat ≠ y'.toNat) : getRow (setCell b x y c) y' = getRow b y' := by
  unfold getRow setCell
  simp only
  rw [List.getD_eq_getElem?_getD, List.getElem?_set_ne hy, ← List.getD_eq_getElem?_getD]

theorem getRow_setCell_self {b : Board} {x y : Int} {c : Cell}
    (hylt : y.toNat < b.Cells.length) :
    getRow (setCell b x y c) y = (getRow b y).set x.toNat c := by
  unfold getRow setCell
  simp only
  rw [List.getD_eq_getElem?_getD, List.getElem?_set_self hylt]
  rfl

theorem setCell_oob {b : Board} {x y : Int} {c : Cell}
    (hyge : b.Cells.length ≤ y.toNat) : setCell b x y c = b := by
  unfold setCell
  rw [List.set_eq_of_length_le hyge]

theorem getCell_setCell (b : Board) (x y x' y' : Int) (c : Cell) :
    getCell (setCell b x y c) x' y' = getCell b x' y' ∨
      (x.toNat = x'.toNat ∧ y.toNat = y'.toNat ∧ getCell (setCell b x y c) x' y' = c) := by
  rcases eq_or_ne y.toNat y'.toNat with hy | hy
  · rcases Nat.lt_or_ge y.toNat b.Cells.length with hylt | hyge
    · have hrowEq : getRow (setCell b x y c) y' = (getRow b y).set x.toNat c := by
        have := getRow_setCell_self (b := b) (x := x) (c := c) hylt
        calc getRow (setCell b x y c) y'
            = getRow (setCell b x y c) y := by unfold getRow; rw [← hy]
          _ = (getRow b y).set x.toNat c := this
      have hyy : getRow b y = getRow b y' := by unfold getRow; rw [hy]
      rcases eq_or_ne x.toNat x'.toNat with hx | hx
      · rcases Nat.lt_or_ge x.toNat (getRow b y).length with hxlt | hxge
        · right
          refine ⟨hx, hy, ?_⟩
          unfold getCell
          rw [hrowEq, ← hx, List.getD_eq_getElem?_getD, List.getElem?_set_self hxlt]
          rfl
        · left
          unfold getCell
          rw [hrowEq, List.set_eq_of_length_le hxge, hyy]
      · left
        unfold getCell
        rw [hrowEq, List.getD_eq_getElem?_getD, List.getElem?_set_ne hx,
          ← List.getD_eq_getElem?_getD, hyy]
    · left
      rw [setCell_oob hyge]
  · left
    unfold getCell
    rw [getRow_setCell_ne hy]

theorem getCell_setCell_ne (b : Board) {x y x' y' : Int} (c : Cell)
    (h : ¬(x.toNat = x'.toNat ∧ y.toNat = y'.toNat)) :
    getCell (setCell b x y c) x' y' = getCell b x' y' := by
  rcases getCell_setCell b x y x' y' c with h1 | ⟨hx, hy, _⟩
  · exact h1
  · exact absurd ⟨hx, hy⟩ h

theorem getCell_setCell_self {b : Board} {x y : Int} (c : Cell)
    (hwf : WF b) (hv : isValidCell b x y) :
    getCell (setCell b x y c) x y = c := by
  obtain ⟨hx, hy⟩ := toNat_lt_of_valid hv
  obtain ⟨hlen, hrow⟩ := hwf
  have hylt : y.toNat < b.Cells.length := by rw [hlen]; exact hy
  have hrowlen : (b.Cells[y.toNat]).length = b.Width :=
    hrow _ (List.getElem_mem hylt)
  have hxlt : x.toNat < (getRow b y).length := by
    rw [getRow_eq_getElem hylt, hrowlen]; exact hx
  unfold getCell
  rw [getRow_setCell_self hylt, List.getD_eq_getElem?_getD,
    List.getElem?_set_self hxlt]
  rfl

theorem WF_setCell {b : Board} (x y : Int) (c : Cell) (hwf : WF b) :
    WF (setCell b x y c) := by
  obtain ⟨hlen, hrow⟩ := hwf
  refine ⟨by simpa [setCell] using hlen, ?_⟩
  intro row hmem
  simp only [setCell] at hmem
  rcases Nat.lt_or_ge y.toNat b.Cells.length with hylt | hyge
  · rcases List.mem_or_eq_of_mem_set hmem with h | h
    · exact hrow _ h
    · subst h
      rw [List.length_set, getRow_eq_getElem hylt]
      exact hrow _ (List.getElem_mem hylt)
  · rw [List.set_eq_of_length_le hyge] at hmem
    exact hrow _ hmem

/-! ### Position list lemmas -/

theorem mem_allPositions (b : Board) (p : Int × Int) :
    p ∈ allPositions b ↔ isValidCell b p.1 p.2 := by
  unfold allPositions isValidCell
  constructor
  · intro hmem
    obtain ⟨l, hl, hp⟩ := List.mem_flatten.mp hmem
    obtain ⟨yy, hyy, rfl⟩ := List.mem_map.mp hl
    obtain ⟨xx, hxx, rfl⟩ := List.mem_map.mp hp
    rw [List.mem_range] at hyy hxx
    show (0 : Int) ≤ xx ∧ (xx : Int) < (b.Width : Int) ∧
      (0 : Int) ≤ yy ∧ (yy : Int) < (b.Height : Int)
    refine ⟨?_, ?_, ?_, ?_⟩ <;> omega
  · rintro ⟨h1, h2, h3, h4⟩
    refine List.mem_flatten.mpr
      ⟨(List.range b.Width).map fun (x : Nat) => ((x : Int), ((p.2.toNat : Nat) : Int)),
       List.mem_map.mpr ⟨p.2.toNat, List.mem_range.mpr ((Int.toNat_lt h3).mpr h4), rfl⟩,
       List.mem_map.mpr ⟨p.1.toNat, List.mem_range.mpr ((Int.toNat_lt h1).mpr h2), ?_⟩⟩
    rw [Int.toNat_of_nonneg h1, Int.toNat_of_nonneg h3]

theorem nodup_allPositions (b : Board) : (allPositions b).Nodup := by
  unfold allPositions
  rw [List.nodup_flatten]
  constructor
  · intro l hl
    simp only [List.mem_map, List.mem_range] at hl
    obtain ⟨yy, _, rfl⟩ := hl
    refine List.Nodup.map ?_ (List.nodup_range _)
    intro a b h
    simpa using h
  · rw [List.pairwise_map]
    refine (List.pairwise_lt_range b.Height).imp ?_
    intro a b hab q hqa hqb
    simp only [List.mem_map, List.mem_range] at hqa hqb
    obtain ⟨x1, _, rfl⟩ := hqa
    obtain ⟨x2, _, h2⟩ := hqb
    have : ((b : Int)) = ((a : Int)) := congrArg Prod.snd h2
    omega

theorem length_allPositions (b : Board) :
    (allPositions b).length = b.Width * b.Height := by
  unfold allPositions
  rw [List.length_flatten, List.map_map]
  have h : (List.map (List.length ∘ fun (y : Nat) => (List.range b.Width).map
      fun (x : Nat) => ((x : Int), (y : Int))) (List.range b.Height)) =
      List.replicate b.Height b.Width := by
    rw [List.eq_replicate_iff]
    constructor
    · simp
    · intro v hv
      simp only [List.mem_map, Function.comp_apply, List.length_map,
        List.length_range, List.mem_range] at hv
      obtain ⟨_, _, rfl⟩ := hv
      rfl
  rw [h, List.sum_replicate, smul_eq_mul, Nat.mul_comm]

/-- Position lists agree between boards with equal dimensions. -/
theorem allPositions_congr {b b' : Board} (hw : b.Width = b'.Width)
    (hh : b.Height = b'.Height) : allPositions b = allPositions b' := by
  unfold allPositions
  rw [hw, hh]

/-! ### Counting lemmas -/

/-- Flipping the predicate value at exactly one member of a duplicate-free
list from true to false lowers the count by one. -/
theorem countP_flip_one {α : Type} (l : List α) (hnd : l.Nodup) (a : α)
    (p q : α → Bool) (ha : a ∈ l)
    (hpq : ∀ x ∈ l, x ≠ a → p x = q x) (hpa : p a = true) (hqa : q a = false) :
    List.countP p l = List.countP q l + 1 := by
  induction l with
  | nil => cases ha
  | cons hd tl ih =>
    rcases List.mem_cons.mp ha with rfl | hmem
    · have htl : ∀ x ∈ tl, p x = q x := by
        intro x hx
        refine hpq x (List.mem_cons_of_mem _ hx) ?_
        rintro rfl
        exact (List.nodup_cons.mp hnd).1 hx
      rw [List.countP_cons_of_pos _ _ hpa, List.countP_cons_of_neg _ _ (by simp [hqa]),
        List.countP_congr fun x hx => by rw [htl x hx]]
    · have hhd : hd ≠ a := by
        rintro rfl
        exact (List.nodup_cons.mp hnd).1 hmem
      have heq : p hd = q hd := hpq hd (List.mem_cons_self _ _) hhd
      have hrec := ih (List.nodup_cons.mp hnd).2 hmem
        (fun x hx hxa => hpq x (List.mem_cons_of_mem _ hx) hxa)
      by_cases hb : p hd = true
      · rw [List.countP_cons_of_pos _ _ hb,
          List.countP_cons_of_pos _ _ (by rw [← heq]; exact hb), hrec]
      · rw [List.countP_cons_of_neg _ _ hb,
          List.countP_cons_of_neg _ _ (by rw [← heq]; exact hb), hrec]

/-! ### Static frame lemmas for the flood fill -/

/-- Boards equal in everything except possibly the `Revealed` field of
cells: same dimensions, same matrix shape, same `IsMine`, `AdjMines`
and `Flagged` everywhere.  `revealFuel` only moves a board up this
relation. -/
def staticEq (b b' : Board) : Prop :=
  b.Width = b'.Width ∧ b.Height = b'.Height ∧ b.Cells.length = b'.Cells.length ∧
  (∀ i : Nat, (b.Cells.getD i []).length = (b'.Cells.getD i []).length) ∧
  ∀ x y : Int, (getCell b x y).IsMine = (getCell b' x y).IsMine ∧
    (getCell b x y).AdjMines = (getCell b' x y).AdjMines ∧
    (getCell b x y).Flagged = (getCell b' x y).Flagged

theorem staticEq_refl (b : Board) : staticEq b b :=
  ⟨rfl, rfl, rfl, fun _ => rfl, fun _ _ => ⟨rfl, rfl, rfl⟩⟩

theorem staticEq_trans {a b c : Board} (h1 : staticEq a b) (h2 : staticEq b c) :
    staticEq a c := by
  obtain ⟨w1, h1', l1, r1, p1⟩ := h1
  obtain ⟨w2, h2', l2, r2, p2⟩ := h2
  refine ⟨w1.trans w2, h1'.trans h2', l1.trans l2, fun i => (r1 i).trans (r2 i), ?_⟩
  intro x y
  obtain ⟨m1, a1, f1⟩ := p1 x y
  obtain ⟨m2, a2, f2⟩ := p2 x y
  exact ⟨m1.trans m2, a1.trans a2, f1.trans f2⟩

theorem getD_set_row_length (L : List (List Cell)) (yt : Nat) (r' : List Cell)
    (hlen : (L.getD yt []).length = r'.length) (i : Nat) :
    ((L.set yt r').getD i []).length = (L.getD i []).length := by
  rcases eq_or_ne yt i with rfl | hne
  · rcases Nat.lt_or_ge yt L.length with hlt | hge
    · rw [List.getD_eq_getElem?_getD, List.getElem?_set_self hlt]
      rw [List.getD_eq_getElem?_getD, List.getElem?_eq_getElem hlt] at hlen ⊢
      simp only [Option.getD_some] at hlen ⊢
      omega
    · rw [List.set_eq_of_length_le hge]
  · rw [List.getD_eq_getElem?_getD, List.getElem?_set_ne hne, ← List.getD_eq_getElem?_getD]

theorem staticEq_setRevealed (b : Board) (x y : Int) :
    staticEq b (setRevealed b x y) := by
  refine ⟨rfl, rfl, ?_, ?_, ?_⟩
  · simp [setRevealed, setCell]
  · intro i
    show (b.Cells.getD i []).length = _
    unfold setRevealed setCell
    simp only
    rw [getD_set_row_length]
    unfold getRow
    rw [List.length_set]
  · intro x' y'
    rcases getCell_setCell b x y x' y' { getCell b x y with Revealed := true }
        with h | ⟨hx, hy, h⟩
    · rw [show setRevealed b x y = setCell b x y { getCell b x y with Revealed := true }
        from rfl, h]
      exact ⟨rfl, rfl, rfl⟩
    · have hcells : getCell b x' y' = getCell b x y :=
        getCell_congr_toNat b hx.symm hy.symm
      rw [show setRevealed b x y = setCell b x y { getCell b x y with Revealed := true }
        from rfl, h, hcells]
      exact ⟨rfl, rfl, rfl⟩

theorem WF_of_staticEq {b b' : Board} (h : staticEq b b') (hwf : WF b) : WF b' := by
  obtain ⟨w, ht, l, r, _⟩ := h
  obtain ⟨hlen, hrow⟩ := hwf
  constructor
  · omega
  · intro row hmem
    obtain ⟨i, hi, rfl⟩ := List.mem_iff_getElem.mp hmem
    have h2 : (b'.Cells.getD i []).length = b'.Cells[i].length := by
      rw [List.getD_eq_getElem _ _ hi]
    have hi' : i < b.Cells.length := by omega
    have h3 : (b.Cells.getD i []).length = b.Cells[i].length := by
      rw [List.getD_eq_getElem _ _ hi']
    have h4 : b.Cells[i].length = b.Width := hrow _ (List.getElem_mem hi')
    rw [← h2, ← r i, h3, h4, w]

/-- Generic preservation of a predicate through the neighbor fold of the
flood fill. -/
theorem foldl_pres {P : Board → Prop} (g : Board → Int × Int → Board)
    (l : List (Int × Int))
    (hstep : ∀ bd d, d ∈ l → P bd → P (g bd d)) :
    ∀ bd, P bd → P (l.foldl g bd) := by
  induction l with
  | nil => intro bd h; exact h
  | cons hd tl ih =>
    intro bd h
    exact ih (fun bd' d hd' h' => hstep bd' d (List.mem_cons_of_mem _ hd') h')
      (g bd hd) (hstep bd hd (List.mem_cons_self _ _) h)

/-- `revealFuel` changes nothing but `Revealed` fields. -/
theorem staticEq_revealFuel (f : Nat) :
    ∀ (b : Board) (x y : Int), staticEq b ((revealFuel f b x y).1) := by
  induction f with
  | zero => intro b x y; exact staticEq_refl b
  | succ f ih =>
    intro b x y
    rw [revealFuel]
    by_cases hc : ¬ isValidCell b x y ∨ (getCell b x y).Revealed
    · rw [if_pos hc]; exact staticEq_refl b
    · rw [if_neg hc]
      simp only
      by_cases hm : (getCell (setRevealed b x y) x y).IsMine = true
      · rw [if_pos hm]; exact staticEq_setRevealed b x y
      · rw [if_neg hm]
        by_cases h0 : (getCell (setRevealed b x y) x y).AdjMines = 0
        · rw [if_pos h0]
          refine staticEq_trans (staticEq_setRevealed b x y) ?_
          refine foldl_pres _ _ ?_ _ (staticEq_refl _)
          intro bd d _ h
          exact staticEq_trans h (ih bd (x + d.1) (y + d.2))
        · rw [if_neg h0]; exact staticEq_setRevealed b x y

/-- `revealFuel` never un-reveals a cell. -/
theorem revealed_mono_revealFuel (f : Nat) :
    ∀ (b : Board) (x y x' y' : Int),
      (getCell b x' y').Revealed = true →
      (getCell ((revealFuel f b x y).1) x' y').Revealed = true := by
  induction f with
  | zero => intro b x y x' y' h; exact h
  | succ f ih =>
    intro b x y x' y' h
    rw [revealFuel]
    by_cases hc : ¬ isValidCell b x y ∨ (getCell b x y).Revealed
    · rw [if_pos hc]; exact h
    · rw [if_neg hc]
      simp only
      have hb1 : (getCell (setRevealed b x y) x' y').Revealed = true := by
        rcases getCell_setCell b x y x' y' { getCell b x y with Revealed := true }
            with heq | ⟨_, _, heq⟩
        · rw [show setRevealed b x y =
            setCell b x y { getCell b x y with Revealed := true } from rfl, heq]
          exact h
        · rw [show setRevealed b x y =
            setCell b x y { getCell b x y with Revealed := true } from rfl, heq]
      by_cases hm : (getCell (setRevealed b x y) x y).IsMine = true
      · rw [if_pos hm]; exact hb1
      · rw [if_neg hm]
        by_cases h0 : (getCell (setRevealed b x y) x y).AdjMines = 0
        · rw [if_pos h0]
          refine foldl_pres
            (P := fun bd => (getCell bd x' y').Revealed = true) _ _ ?_ _ hb1
          intro bd d _ hp
          exact ih bd (x + d.1) (y + d.2) x' y' hp
        · rw [if_neg h0]; exact hb1

/-! ### Corollaries of the static frame -/

theorem getCell_setRevealed_self {b : Board} {x y : Int}
    (hwf : WF b) (hv : isValidCell b x y) :
    getCell (setRevealed b x y) x y = { getCell b x y with Revealed := true } :=
  getCell_setCell_self _ hwf hv

theorem WF_revealFuel (f : Nat) (b : Board) (x y : Int) (hwf : WF b) :
    WF ((revealFuel f b x y).1) :=
  WF_of_staticEq (staticEq_revealFuel f b x y) hwf

theorem Width_revealFuel (f : Nat) (b : Board) (x y : Int) :
    ((revealFuel f b x y).1).Width = b.Width :=
  ((staticEq_revealFuel f b x y).1).symm

theorem Height_revealFuel (f : Nat) (b : Board) (x y : Int) :
    ((revealFuel f b x y).1).Height = b.Height :=
  ((staticEq_revealFuel f b x y).2.1).symm

theorem isValidCell_revealFuel (f : Nat) (b : Board) (x y x' y' : Int) :
    isValidCell ((revealFuel f b x y).1) x' y' ↔ isValidCell b x' y' := by
  unfold isValidCell
  rw [Width_revealFuel, Height_revealFuel]

theorem allPositions_revealFuel (f : Nat) (b : Board) (x y : Int) :
    allPositions ((revealFuel f b x y).1) = allPositions b :=
  allPositions_congr (Width_revealFuel f b x y) (Height_revealFuel f b x y)

/-- The flood fill reveals its own target whenever the target is valid
and there is at least one unit of fuel. -/
theorem revealFuel_target (f : Nat) (b : Board) (x y : Int) (hwf : WF b)
    (hv : isValidCell b x y) (hf : 1 ≤ f) :
    (getCell ((revealFuel f b x y).1) x y).Revealed = true := by
  obtain ⟨f, rfl⟩ : ∃ f', f = f' + 1 := ⟨f - 1, by omega⟩
  rw [revealFuel]
  by_cases hc : ¬ isValidCell b x y ∨ (getCell b x y).Revealed
  · rw [if_pos hc]
    rcases hc with h | h
    · exact absurd hv h
    · exact h
  · rw [if_neg hc]
    simp only
    have hb1 : (getCell (setRevealed b x y) x y).Revealed = true := by
      rw [getCell_setRevealed_self hwf hv]
    by_cases hm : (getCell (setRevealed b x y) x y).IsMine = true
    · rw [if_pos hm]; exact hb1
    · rw [if_neg hm]
      by_cases h0 : (getCell (setRevealed b x y) x y).AdjMines = 0
      · rw [if_pos h0]
        refine foldl_pres (P := fun bd => (getCell bd x y).Revealed = true) _ _ ?_ _ hb1
        intro bd d _ hp
        exact revealed_mono_revealFuel f bd (x + d.1) (y + d.2) x y hp
      · rw [if_neg h0]; exact hb1

/-! ### The unrevealed-cell count as a termination measure -/

theorem unrevealedCount_congr_static {b b' : Board} (h : staticEq b b')
    (hrev : ∀ x y : Int, (getCell b x y).Revealed = (getCell b' x y).Revealed) :
    unrevealedCount b = unrevealedCount b' := by
  unfold unrevealedCount
  rw [allPositions_congr h.1 h.2.1]
  refine List.countP_congr ?_
  intro p _
  rw [hrev p.1 p.2]

theorem unrevealedCount_mono (f : Nat) (b : Board) (x y : Int) :
    unrevealedCount ((revealFuel f b x y).1) ≤ unrevealedCount b := by
  unfold unrevealedCount
  rw [allPositions_revealFuel]
  refine List.countP_mono_left ?_
  intro p _ hp
  rw [Bool.not_eq_eq_eq_not, Bool.not_true] at hp ⊢
  cases hb : (getCell b p.1 p.2).Revealed
  · rfl
  · rw [revealed_mono_revealFuel f b x y p.1 p.2 hb] at hp
    cases hp

/-- Revealing a fresh valid cell lowers the unrevealed count by one. -/
theorem unrevealedCount_setRevealed {b : Board} {x y : Int} (hwf : WF b)
    (hv : isValidCell b x y) (hnr : (getCell b x y).Revealed = false) :
    unrevealedCount b = unrevealedCount (setRevealed b x y) + 1 := by
  unfold unrevealedCount
  rw [@allPositions_congr (setRevealed b x y) b rfl rfl]
  refine countP_flip_one (allPositions b) (nodup_allPositions b) (x, y) _ _
    ((mem_allPositions b (x, y)).mpr hv) ?_ ?_ ?_
  · intro q hq hne
    have hqv : isValidCell b q.1 q.2 := (mem_allPositions b q).mp hq
    have : getCell (setRevealed b x y) q.1 q.2 = getCell b q.1 q.2 := by
      refine getCell_setCell_ne b _ ?_
      rintro ⟨hx, hy⟩
      obtain ⟨rfl, rfl⟩ := valid_eq_of_toNat hv hqv hx hy
      exact hne rfl
    rw [this]
  · rw [hnr]; rfl
  · rw [getCell_setRevealed_self hwf hv]; rfl

theorem unrevealedCount_pos {b : Board} {x y : Int}
    (hv : isValidCell b x y) (hnr : (getCell b x y).Revealed = false) :
    1 ≤ unrevealedCount b := by
  refine List.countP_pos_iff.mpr ⟨(x, y), (mem_allPositions b (x, y)).mpr hv, ?_⟩
  rw [hnr]; rfl

/-! ### Fuel stability: the flood fill reaches a fixed point -/

theorem foldl_reveal_congr (m f g : Nat) (x y : Int)
    (hrec : ∀ (bd : Board) (xx yy : Int), WF bd → unrevealedCount bd ≤ m →
      revealFuel f bd xx yy = revealFuel g bd xx yy) :
    ∀ (l : List (Int × Int)) (bd : Board), WF bd → unrevealedCount bd ≤ m →
      l.foldl (fun acc d => (revealFuel f acc (x + d.1) (y + d.2)).1) bd =
      l.foldl (fun acc d => (revealFuel g acc (x + d.1) (y + d.2)).1) bd := by
  intro l
  induction l with
  | nil => intro bd _ _; rfl
  | cons hd tl ih =>
    intro bd hwf hm
    simp only [List.foldl_cons]
    rw [← hrec bd (x + hd.1) (y + hd.2) hwf hm]
    exact ih _ (WF_revealFuel f bd _ _ hwf)
      (le_trans (unrevealedCount_mono f bd _ _) hm)

theorem revealFuel_stable (n : Nat) :
    ∀ (f g : Nat) (b : Board) (x y : Int), WF b → unrevealedCount b ≤ n →
      n < f → n < g → revealFuel f b x y = revealFuel g b x y := by
  induction n using Nat.strong_induction_on with
  | _ n ih =>
    intro f g b x y hwf hcount hf hg
    obtain ⟨f', rfl⟩ : ∃ f', f = f' + 1 := ⟨f - 1, by omega⟩
    obtain ⟨g', rfl⟩ : ∃ g', g = g' + 1 := ⟨g - 1, by omega⟩
    rw [revealFuel]
    conv_rhs => rw [revealFuel]
    by_cases hc : ¬ isValidCell b x y ∨ (getCell b x y).Revealed
    · rw [if_pos hc, if_pos hc]
    · rw [if_neg hc, if_neg hc]
      simp only
      push_neg at hc
      obtain ⟨hv, hnr⟩ := hc
      have hnr' : (getCell b x y).Revealed = false := by
        revert hnr; cases (getCell b x y).Revealed <;> simp
      have hpos : 1 ≤ unrevealedCount b := unrevealedCount_pos hv hnr'
      have hdec : unrevealedCount b = unrevealedCount (setRevealed b x y) + 1 :=
        unrevealedCount_setRevealed hwf hv hnr'
      by_cases hm : (getCell (setRevealed b x y) x y).IsMine = true
      · rw [if_pos hm, if_pos hm]
      · rw [if_neg hm, if_neg hm]
        by_cases h0 : (getCell (setRevealed b x y) x y).AdjMines = 0
        · rw [if_pos h0, if_pos h0]
          have hwf1 : WF (setRevealed b x y) :=
            WF_of_staticEq (staticEq_setRevealed b x y) hwf
          have hstep : ∀ (bd : Board) (xx yy : Int), WF bd →
              unrevealedCount bd ≤ n - 1 → revealFuel f' bd xx yy = revealFuel g' bd xx yy := by
            intro bd xx yy hwfbd hmbd
            exact ih (n - 1) (by omega) f' g' bd xx yy hwfbd hmbd (by omega) (by omega)
          rw [foldl_reveal_congr (n - 1) f' g' x y hstep neighborOffsets
            (setRevealed b x y) hwf1 (by omega)]
        · rw [if_neg h0, if_neg h0]

/-! ### Zero regions of a board -/

/-- Chebyshev-distance-1 adjacency, expressed through the offset list
the Go loops iterate over. -/
def chebAdj (p q : Int × Int) : Prop :=
  ∃ d ∈ neighborOffsets, d ≠ ((0 : Int), (0 : Int)) ∧ q = (p.1 + d.1, p.2 + d.2)

/-- An in-bounds safe cell whose stored adjacent-mine count is zero. -/
def zeroCell (b : Board) (p : Int × Int) : Prop :=
  isValidCell b p.1 p.2 ∧ (getCell b p.1 p.2).IsMine = false ∧
    (getCell b p.1 p.2).AdjMines = 0

/-- `ZReach b p q`: `q` lies in the 8-connected region of zero-count
cells containing `p`. -/
inductive ZReach (b : Board) (p : Int × Int) : Int × Int → Prop
  | refl : zeroCell b p → ZReach b p p
  | step {q r : Int × Int} : ZReach b p q → chebAdj q r → zeroCell b r → ZReach b p r

/-- The set of cells the cascade starting at a zero cell `p` may touch:
the zero region of `p` together with its in-bounds neighbors. -/
def regionCover (b : Board) (p q : Int × Int) : Prop :=
  ZReach b p q ∨ ∃ z, ZReach b p z ∧ chebAdj z q ∧ isValidCell b q.1 q.2

theorem ZReach_zero {b : Board} {p q : Int × Int} (h : ZReach b p q) :
    zeroCell b q := by
  cases h with
  | refl h => exact h
  | step _ _ h => exact h

theorem ZReach_src {b : Board} {p q : Int × Int} (h : ZReach b p q) :
    zeroCell b p := by
  induction h with
  | refl h => exact h
  | step _ _ _ ih => exact ih

theorem ZReach_trans {b : Board} {p q r : Int × Int}
    (h1 : ZReach b p q) (h2 : ZReach b q r) : ZReach b p r := by
  induction h2 with
  | refl _ => exact h1
  | step _ hadj hz ih => exact ZReach.step ih hadj hz

theorem staticEq_symm {b b' : Board} (h : staticEq b b') : staticEq b' b := by
  obtain ⟨w, ht, l, r, p⟩ := h
  refine ⟨w.symm, ht.symm, l.symm, fun i => (r i).symm, ?_⟩
  intro x y
  obtain ⟨m, a, f⟩ := p x y
  exact ⟨m.symm, a.symm, f.symm⟩

theorem isValidCell_congr_static {b b' : Board} (h : staticEq b b') (x y : Int) :
    isValidCell b x y ↔ isValidCell b' x y := by
  unfold isValidCell
  rw [h.1, h.2.1]

theorem zeroCell_congr {b b' : Board} (h : staticEq b b') {p : Int × Int}
    (hz : zeroCell b p) : zeroCell b' p := by
  obtain ⟨hv, hm, ha⟩ := hz
  obtain ⟨hm', ha', _⟩ := h.2.2.2.2 p.1 p.2
  exact ⟨(isValidCell_congr_static h p.1 p.2).mp hv, hm' ▸ hm, ha' ▸ ha⟩

theorem ZReach_congr {b b' : Board} (h : staticEq b b') {p q : Int × Int}
    (hr : ZReach b p q) : ZReach b' p q := by
  induction hr with
  | refl hz => exact ZReach.refl (zeroCell_congr h hz)
  | step _ hadj hz ih => exact ZReach.step ih hadj (zeroCell_congr h hz)

theorem regionCover_congr {b b' : Board} (h : staticEq b b') {p q : Int × Int}
    (hr : regionCover b p q) : regionCover b' p q := by
  rcases hr with hr | ⟨z, hz, hadj, hv⟩
  · exact Or.inl (ZReach_congr h hr)
  · exact Or.inr ⟨z, ZReach_congr h hz, hadj, (isValidCell_congr_static h q.1 q.2).mp hv⟩

theorem regionCover_mono {b : Board} {p z q : Int × Int}
    (h1 : ZReach b p z) (h2 : regionCover b z q) : regionCover b p q := by
  rcases h2 with h2 | ⟨w, hw, hadj, hv⟩
  · exact Or.inl (ZReach_trans h1 h2)
  · exact Or.inr ⟨w, ZReach_trans h1 hw, hadj, hv⟩

/-! ### Soundness: the cascade stays inside the region cover -/

theorem revealFuel_sound (f : Nat) :
    ∀ (b : Board) (x y x' y' : Int), isValidCell b x' y' →
      (getCell ((revealFuel f b x y).1) x' y').Revealed = true →
      (getCell b x' y').Revealed = true ∨
        (isValidCell b x y ∧ (x', y') = (x, y)) ∨
        (zeroCell b (x, y) ∧ regionCover b (x, y) (x', y')) := by
  induction f with
  | zero => intro b x y x' y' _ h; exact Or.inl h
  | succ f ih =>
    intro b x y x' y' hq h
    rw [revealFuel] at h
    by_cases hc : ¬ isValidCell b x y ∨ (getCell b x y).Revealed
    · rw [if_pos hc] at h; exact Or.inl h
    · rw [if_neg hc] at h
      simp only at h
      push_neg at hc
      obtain ⟨hv, _⟩ := hc
      have hb1 : ∀ x'' y'', isValidCell b x'' y'' →
          (getCell (setRevealed b x y) x'' y'').Revealed = true →
          (getCell b x'' y'').Revealed = true ∨ (x'', y'') = (x, y) := by
        intro x'' y'' hq'' h''
        rcases getCell_setCell b x y x'' y'' { getCell b x y with Revealed := true }
            with heq | ⟨hx, hy, _⟩
        · rw [show setRevealed b x y =
            setCell b x y { getCell b x y with Revealed := true } from rfl, heq] at h''
          exact Or.inl h''
        · obtain ⟨rfl, rfl⟩ := valid_eq_of_toNat hv hq'' hx hy
          exact Or.inr rfl
      by_cases hm : (getCell (setRevealed b x y) x y).IsMine = true
      · rw [if_pos hm] at h
        rcases hb1 x' y' hq h with h' | h'
        · exact Or.inl h'
        · exact Or.inr (Or.inl ⟨hv, h'⟩)
      · rw [if_neg hm] at h
        by_cases h0 : (getCell (setRevealed b x y) x y).AdjMines = 0
        · rw [if_pos h0] at h
          have hz : zeroCell b (x, y) := by
            obtain ⟨hm', ha', _⟩ := (staticEq_setRevealed b x y).2.2.2.2 x y
            refine ⟨hv, ?_, ?_⟩
            · rw [hm']; revert hm; cases (getCell (setRevealed b x y) x y).IsMine <;> simp
            · rw [ha']; exact h0
          have hfold := foldl_pres
            (P := fun acc => staticEq b acc ∧ ∀ x'' y'', isValidCell b x'' y'' →
              (getCell acc x'' y'').Revealed = true →
              (getCell b x'' y'').Revealed = true ∨ (x'', y'') = (x, y) ∨
                regionCover b (x, y) (x'', y''))
            (fun acc d => (revealFuel f acc (x + d.1) (y + d.2)).1) neighborOffsets
            ?_ (setRevealed b x y) ⟨staticEq_setRevealed b x y, ?_⟩
          · rcases hfold.2 x' y' hq h with h' | h' | h'
            · exact Or.inl h'
            · exact Or.inr (Or.inl ⟨hv, h'⟩)
            · exact Or.inr (Or.inr ⟨hz, h'⟩)
          · intro acc d hd hP
            obtain ⟨hst, hrevs⟩ := hP
            refine ⟨staticEq_trans hst (staticEq_revealFuel f acc (x + d.1) (y + d.2)), ?_⟩
            intro x'' y'' hv'' hrev''
            have hv''acc : isValidCell acc x'' y'' :=
              (isValidCell_congr_static hst x'' y'').mp hv''
            rcases ih acc (x + d.1) (y + d.2) x'' y'' hv''acc hrev'' with h' | h' | h'
            · exact hrevs x'' y'' hv'' h'
            · obtain ⟨hvn, heq⟩ := h'
              rw [Prod.mk.injEq] at heq
              obtain ⟨rfl, rfl⟩ := heq
              have hvnb : isValidCell b (x + d.1) (y + d.2) :=
                (isValidCell_congr_static hst (x + d.1) (y + d.2)).mpr hvn
              by_cases hd0 : d = ((0 : Int), (0 : Int))
              · subst hd0
                exact Or.inr (Or.inl (by simp))
              · refine Or.inr (Or.inr (Or.inr ⟨(x, y), ZReach.refl hz, ?_, hvnb⟩))
                exact ⟨d, hd, hd0, rfl⟩
            · obtain ⟨hzn, hcov⟩ := h'
              have hstb : staticEq acc b := staticEq_symm hst
              have hznb : zeroCell b (x + d.1, y + d.2) := zeroCell_congr hstb hzn
              have hcovb : regionCover b (x + d.1, y + d.2) (x'', y'') :=
                regionCover_congr hstb hcov
              by_cases hd0 : d = ((0 : Int), (0 : Int))
              · subst hd0
                simp only [add_zero] at hznb hcovb
                exact Or.inr (Or.inr hcovb)
              · have hreach : ZReach b (x, y) (x + d.1, y + d.2) :=
                  ZReach.step (ZReach.refl hz) ⟨d, hd, hd0, rfl⟩ hznb
                exact Or.inr (Or.inr (regionCover_mono hreach hcovb))
          · intro x'' y'' hq'' h''
            rcases hb1 x'' y'' hq'' h'' with h' | h'
            · exact Or.inl h'
            · exact Or.inr (Or.inl h')
        · rw [if_neg h0] at h
          rcases hb1 x' y' hq h with h' | h'
          · exact Or.inl h'
          · exact Or.inr (Or.inl ⟨hv, h'⟩)

/-! ### Closure: every revealed zero cell has all its neighbors revealed -/

instance (b : Board) (p : Int × Int) : Decidable (zeroCell b p) := by
  unfold zeroCell; infer_instance

instance (p q : Int × Int) : Decidable (chebAdj p q) := by
  unfold chebAdj; infer_instance

/-- Closure except at cells satisfying `S` (the exception set tracks
cells whose cascade is still in progress during the induction). -/
def closedExcept (b : Board) (S : Int × Int → Prop) : Prop :=
  ∀ p : Int × Int, ¬ S p → zeroCell b p → (getCell b p.1 p.2).Revealed = true →
    ∀ d ∈ neighborOffsets, isValidCell b (p.1 + d.1) (p.2 + d.2) →
      (getCell b (p.1 + d.1) (p.2 + d.2)).Revealed = true

/-- Invariant of every reachable game state: a revealed zero-count cell
has all of its in-bounds neighbors revealed. -/
def boardClosed (b : Board) : Prop :=
  ∀ p ∈ allPositions b, zeroCell b p → (getCell b p.1 p.2).Revealed = true →
    ∀ d ∈ neighborOffsets, isValidCell b (p.1 + d.1) (p.2 + d.2) →
      (getCell b (p.1 + d.1) (p.2 + d.2)).Revealed = true

instance (b : Board) : Decidable (boardClosed b) := by
  unfold boardClosed; infer_instance

theorem boardClosed_iff_closedExcept (b : Board) :
    boardClosed b ↔ closedExcept b (fun _ => False) := by
  constructor
  · intro h p _ hz hrev
    exact h p ((mem_allPositions b p).mpr hz.1) hz hrev
  · intro h p _ hz hrev
    exact h p (fun hf => hf) hz hrev

theorem revealed_mono_setRevealed (b : Board) (x y x' y' : Int)
    (h : (getCell b x' y').Revealed = true) :
    (getCell (setRevealed b x y) x' y').Revealed = true := by
  rcases getCell_setCell b x y x' y' { getCell b x y with Revealed := true }
      with heq | ⟨_, _, heq⟩ <;>
    rw [show setRevealed b x y =
      setCell b x y { getCell b x y with Revealed := true } from rfl, heq]
  exact h

/-- After the neighbor fold, every neighbor of `(x, y)` that is in
bounds is revealed. -/
theorem foldl_reveal_targets (f : Nat) (x y : Int) (hf : 1 ≤ f) :
    ∀ (l : List (Int × Int)) (bd : Board), WF bd →
      ∀ d ∈ l, isValidCell bd (x + d.1) (y + d.2) →
        (getCell (l.foldl (fun acc d => (revealFuel f acc (x + d.1) (y + d.2)).1) bd)
          (x + d.1) (y + d.2)).Revealed = true := by
  intro l
  induction l with
  | nil => intro bd _ d hd; cases hd
  | cons hd tl ih =>
    intro bd hwf d hdm hvd
    simp only [List.foldl_cons]
    rcases List.mem_cons.mp hdm with rfl | hdm'
    · refine foldl_pres
        (P := fun acc => (getCell acc (x + d.1) (y + d.2)).Revealed = true) _ _ ?_ _ ?_
      · intro bd' d' _ hp
        exact revealed_mono_revealFuel f bd' (x + d'.1) (y + d'.2) _ _ hp
      · exact revealFuel_target f bd (x + d.1) (y + d.2) hwf hvd hf
    · refine ih _ (WF_revealFuel f bd _ _ hwf) d hdm' ?_
      exact (isValidCell_revealFuel f bd (x + hd.1) (y + hd.2) _ _).mpr hvd

/-- The flood fill preserves closure (relative to any exception set):
when it reveals a zero cell it immediately processes all of that cell's
neighbors, so it never creates a revealed zero cell with an unrevealed
neighbor. -/
theorem closedExcept_reveal_aux (n : Nat) :
    ∀ (f : Nat) (b : Board) (x y : Int) (S : Int × Int → Prop), WF b →
      unrevealedCount b ≤ n → n < f → closedExcept b S →
      closedExcept ((revealFuel f b x y).1) S := by
  induction n using Nat.strong_induction_on with
  | _ n ihn =>
    intro f b x y S hwf hcount hf hcl
    obtain ⟨f', rfl⟩ : ∃ f', f = f' + 1 := ⟨f - 1, by omega⟩
    rw [revealFuel]
    by_cases hc : ¬ isValidCell b x y ∨ (getCell b x y).Revealed
    · rw [if_pos hc]; exact hcl
    · rw [if_neg hc]
      simp only
      push_neg at hc
      obtain ⟨hv, hnr⟩ := hc
      have hnr' : (getCell b x y).Revealed = false := by
        revert hnr; cases (getCell b x y).Revealed <;> simp
      have hst1 : staticEq b (setRevealed b x y) := staticEq_setRevealed b x y
      have hwf1 : WF (setRevealed b x y) := WF_of_staticEq hst1 hwf
      have hdec : unrevealedCount b = unrevealedCount (setRevealed b x y) + 1 :=
        unrevealedCount_setRevealed hwf hv hnr'
      have hpos : 1 ≤ unrevealedCount b := unrevealedCount_pos hv hnr'
      -- a revealed cell of the updated board is an old revealed cell or the target
      have hrev1 : ∀ p : Int × Int, isValidCell b p.1 p.2 →
          (getCell (setRevealed b x y) p.1 p.2).Revealed = true →
          (getCell b p.1 p.2).Revealed = true ∨ p = (x, y) := by
        intro p hpv hprev
        rcases getCell_setCell b x y p.1 p.2 { getCell b x y with Revealed := true }
            with heq | ⟨hx, hy, _⟩
        · rw [show setRevealed b x y =
            setCell b x y { getCell b x y with Revealed := true } from rfl, heq] at hprev
          exact Or.inl hprev
        · obtain ⟨h1, h2⟩ := valid_eq_of_toNat hv hpv hx hy
          exact Or.inr (Prod.ext h1.symm h2.symm)
      by_cases hm : (getCell (setRevealed b x y) x y).IsMine = true
      · rw [if_pos hm]
        -- the newly revealed cell is a mine, hence not a zero cell
        intro p hpS hpz hprev d hd hvd
        have hpzb : zeroCell b p := zeroCell_congr (staticEq_symm hst1) hpz
        rcases hrev1 p hpzb.1 hprev with hold | rfl
        · exact revealed_mono_setRevealed b x y _ _
            (hcl p hpS hpzb hold d hd hvd)
        · obtain ⟨hmb, _, _⟩ := hst1.2.2.2.2 x y
          rw [← hmb] at hm
          have hmine : (getCell b x y).IsMine = false := hpzb.2.1
          rw [hmine] at hm
          simp at hm
      · rw [if_neg hm]
        by_cases h0 : (getCell (setRevealed b x y) x y).AdjMines = 0
        · rw [if_pos h0]
          -- cascade case
          have hf1 : 1 ≤ f' := by omega
          have hcl1 : closedExcept (setRevealed b x y) (fun p => S p ∨ p = (x, y)) := by
            intro p hpS hpz hprev d hd hvd
            have hpzb : zeroCell b p := zeroCell_congr (staticEq_symm hst1) hpz
            rcases hrev1 p hpzb.1 hprev with hold | rfl
            · refine revealed_mono_setRevealed b x y _ _ ?_
              refine hcl p (fun hS => hpS (Or.inl hS)) hpzb hold d hd hvd
            · exact absurd (Or.inr rfl) hpS
          have hstep : ∀ (acc : Board) (d : Int × Int), d ∈ neighborOffsets →
              (WF acc ∧ unrevealedCount acc ≤ n - 1 ∧
                closedExcept acc (fun p => S p ∨ p = (x, y))) →
              WF ((revealFuel f' acc (x + d.1) (y + d.2)).1) ∧
                unrevealedCount ((revealFuel f' acc (x + d.1) (y + d.2)).1) ≤ n - 1 ∧
                closedExcept ((revealFuel f' acc (x + d.1) (y + d.2)).1)
                  (fun p => S p ∨ p = (x, y)) := by
            intro acc d _ hP
            obtain ⟨hwfa, hca, hcla⟩ := hP
            refine ⟨WF_revealFuel f' acc _ _ hwfa, ?_, ?_⟩
            · exact le_trans (unrevealedCount_mono f' acc _ _) hca
            · exact ihn (n - 1) (by omega) f' acc (x + d.1) (y + d.2) _ hwfa hca
                (by omega) hcla
          have hfold := foldl_pres
            (P := fun acc => WF acc ∧ unrevealedCount acc ≤ n - 1 ∧
              closedExcept acc (fun p => S p ∨ p = (x, y)))
            (fun acc d => (revealFuel f' acc (x + d.1) (y + d.2)).1) neighborOffsets
            hstep (setRevealed b x y) ⟨hwf1, by omega, hcl1⟩
          obtain ⟨hwfR, _, hclR⟩ := hfold
          -- the final board: closure holds even at (x, y), because the fold
          -- revealed every in-bounds neighbor of (x, y)
          intro p hpS hpz hprev d hd hvd
          by_cases hpxy : p = (x, y)
          · subst hpxy
            have hstR : staticEq (setRevealed b x y)
                (neighborOffsets.foldl
                  (fun acc d => (revealFuel f' acc (x + d.1) (y + d.2)).1)
                  (setRevealed b x y)) := by
              refine foldl_pres (P := fun acc => staticEq (setRevealed b x y) acc) _ _ ?_ _
                (staticEq_refl _)
              intro bd dd _ hps
              exact staticEq_trans hps (staticEq_revealFuel f' bd (x + dd.1) (y + dd.2))
            have hvd' : isValidCell (setRevealed b x y) (x + d.1) (y + d.2) :=
              (isValidCell_congr_static hstR (x + d.1) (y + d.2)).mpr hvd
            exact foldl_reveal_targets f' x y hf1 neighborOffsets
              (setRevealed b x y) hwf1 d hd hvd'
          · exact hclR p (fun h => h.elim hpS hpxy) hpz hprev d hd hvd
        · rw [if_neg h0]
          -- newly revealed cell has a nonzero count, hence not a zero cell
          intro p hpS hpz hprev d hd hvd
          have hpzb : zeroCell b p := zeroCell_congr (staticEq_symm hst1) hpz
          rcases hrev1 p hpzb.1 hprev with hold | rfl
          · exact revealed_mono_setRevealed b x y _ _
              (hcl p hpS hpzb hold d hd hvd)
          · obtain ⟨_, hab, _⟩ := hst1.2.2.2.2 x y
            rw [← hab] at h0
            have hadj : (getCell b x y).AdjMines = 0 := hpzb.2.2
            exact absurd hadj h0

/-! ### The flood fill at the stable fuel -/

theorem RevealCell_eq_revealFuel {b : Board} (x y : Int) (f : Nat) (hwf : WF b)
    (hf : unrevealedCount b < f) : revealFuel f b x y = RevealCell b x y :=
  revealFuel_stable (unrevealedCount b) f (unrevealedCount b + 1) b x y hwf le_rfl hf
    (by omega)

theorem boardClosed_RevealCell {b : Board} (x y : Int) (hwf : WF b)
    (hcl : boardClosed b) : boardClosed ((RevealCell b x y).1) := by
  rw [boardClosed_iff_closedExcept] at hcl ⊢
  exact closedExcept_reveal_aux (unrevealedCount b) (unrevealedCount b + 1) b x y _
    hwf le_rfl (by omega) hcl

/-- In a closed board, a revealed zero cell carries its whole region. -/
theorem reach_revealed {R : Board} (hclR : boardClosed R) {p q : Int × Int}
    (hreach : ZReach R p q) (hp : (getCell R p.1 p.2).Revealed = true) :
    (getCell R q.1 q.2).Revealed = true := by
  induction hreach with
  | refl _ => exact hp
  | step h1 hadj hz ih =>
    obtain ⟨d, hd, hd0, rfl⟩ := hadj
    have hq' := ZReach_zero h1
    exact hclR _ ((mem_allPositions _ _).mpr hq'.1) hq' ih d hd hz.1

/-- Exact characterization of the reveal cascade from a zero cell on a
well-formed closed board: afterwards a cell is revealed iff it was
revealed before or lies in the region cover of the target. -/
theorem flood_fill_core {b : Board} {x y : Int} (hwf : WF b) (hcl : boardClosed b)
    (hv : isValidCell b x y) (hz0 : zeroCell b (x, y)) :
    ∀ q : Int × Int, isValidCell b q.1 q.2 →
      ((getCell ((RevealCell b x y).1) q.1 q.2).Revealed = true ↔
        (getCell b q.1 q.2).Revealed = true ∨ regionCover b (x, y) q) := by
  intro q hq
  have hRC : RevealCell b x y = revealFuel (unrevealedCount b + 1) b x y := rfl
  constructor
  · intro h
    rw [hRC] at h
    rcases revealFuel_sound (unrevealedCount b + 1) b x y q.1 q.2 hq h with h' | h' | h'
    · exact Or.inl h'
    · obtain ⟨_, heq⟩ := h'
      rw [show q = (x, y) from heq]
      exact Or.inr (Or.inl (ZReach.refl hz0))
    · exact Or.inr h'.2
  · intro h
    rcases h with h | h
    · rw [hRC]
      exact revealed_mono_revealFuel _ b x y q.1 q.2 h
    · have hclR : boardClosed ((RevealCell b x y).1) := boardClosed_RevealCell x y hwf hcl
      have hst : staticEq b ((RevealCell b x y).1) := by
        rw [hRC]; exact staticEq_revealFuel _ b x y
      have htarget : (getCell ((RevealCell b x y).1) x y).Revealed = true := by
        rw [hRC]
        exact revealFuel_target _ b x y hwf hv (by omega)
      rcases h with hreach | ⟨z, hz, hadj, hvq⟩
      · exact reach_revealed hclR (ZReach_congr hst hreach) htarget
      · have hrevz : (getCell ((RevealCell b x y).1) z.1 z.2).Revealed = true :=
          reach_revealed hclR (ZReach_congr hst hz) htarget
        have hzz : zeroCell ((RevealCell b x y).1) z :=
          zeroCell_congr hst (ZReach_zero hz)
        obtain ⟨d, hd, hd0, rfl⟩ := hadj
        refine hclR z ((mem_allPositions _ z).mpr hzz.1) hzz hrevz d hd ?_
        exact (isValidCell_congr_static hst _ _).mp hvq

/-! ### Construction: the initial board and mine placement -/

theorem WF_initBoard (w h : Nat) : WF (initBoard w h) := by
  constructor
  · simp [initBoard]
  · intro row hrow
    simp only [initBoard] at hrow
    rw [List.eq_of_mem_replicate hrow]
    simp [initBoard]

theorem getCell_initBoard (w h : Nat) (x y : Int) :
    getCell (initBoard w h) x y = defaultCell := by
  unfold getCell getRow initBoard
  simp only
  have houter : (List.replicate h (List.replicate w defaultCell)).getD y.toNat [] =
      List.replicate w defaultCell ∨
      (List.replicate h (List.replicate w defaultCell)).getD y.toNat [] = [] := by
    rcases Nat.lt_or_ge y.toNat h with hy | hy
    · left
      rw [List.getD_eq_getElem _ _ (by simpa using hy), List.getElem_replicate]
    · right
      rw [List.getD_eq_default _ _ (by simpa using hy)]
  rcases houter with ho | ho <;> rw [ho]
  · rcases Nat.lt_or_ge x.toNat w with hx | hx
    · rw [List.getD_eq_getElem _ _ (by simpa using hx), List.getElem_replicate]
    · rw [List.getD_eq_default _ _ (by simpa using hx)]
  · rfl

/-- Refined set/get case split: an untouched cell, or the written cell,
in which case the old cell at the written slot is the old target cell. -/
theorem getCell_setCell_cases (b : Board) (x y x' y' : Int) (c : Cell) :
    getCell (setCell b x y c) x' y' = getCell b x' y' ∨
      (getCell b x' y' = getCell b x y ∧ getCell (setCell b x y c) x' y' = c) := by
  rcases getCell_setCell b x y x' y' c with h | ⟨hx, hy, h⟩
  · exact Or.inl h
  · exact Or.inr ⟨getCell_congr_toNat b hx hy ▸ rfl, h⟩

/-- The mine-placement fold of `placeMines`. -/
def mineStep (bd : Board) (p : Int × Int) : Board :=
  setCell bd p.1 p.2 { getCell bd p.1 p.2 with IsMine := true }

theorem placeMines_eq_foldl (shuffle : List (Int × Int) → List (Int × Int))
    (b : Board) (mines : Nat) :
    placeMines shuffle b mines =
      ((shuffle (allPositions b)).take
        (if mines > b.Width * b.Height * 5 / 9 then b.Width * b.Height * 5 / 9
         else mines)).foldl mineStep b := rfl

theorem mineStep_frame (bd : Board) (q : Int × Int) (x y : Int) :
    (getCell (mineStep bd q) x y).AdjMines = (getCell bd x y).AdjMines ∧
    (getCell (mineStep bd q) x y).Revealed = (getCell bd x y).Revealed ∧
    (getCell (mineStep bd q) x y).Flagged = (getCell bd x y).Flagged := by
  rcases getCell_setCell_cases bd q.1 q.2 x y { getCell bd q.1 q.2 with IsMine := true }
      with h | ⟨he, h⟩
  · rw [show mineStep bd q =
      setCell bd q.1 q.2 { getCell bd q.1 q.2 with IsMine := true } from rfl, h]
    exact ⟨rfl, rfl, rfl⟩
  · rw [show mineStep bd q =
      setCell bd q.1 q.2 { getCell bd q.1 q.2 with IsMine := true } from rfl, h, he]
    exact ⟨rfl, rfl, rfl⟩

theorem mineFold_frame (l : List (Int × Int)) :
    ∀ (bd : Board) (x y : Int),
      (getCell (l.foldl mineStep bd) x y).AdjMines = (getCell bd x y).AdjMines ∧
      (getCell (l.foldl mineStep bd) x y).Revealed = (getCell bd x y).Revealed ∧
      (getCell (l.foldl mineStep bd) x y).Flagged = (getCell bd x y).Flagged := by
  induction l with
  | nil => intro bd x y; exact ⟨rfl, rfl, rfl⟩
  | cons q tl ih =>
    intro bd x y
    obtain ⟨h1, h2, h3⟩ := ih (mineStep bd q) x y
    obtain ⟨g1, g2, g3⟩ := mineStep_frame bd q x y
    simp only [List.foldl_cons]
    exact ⟨h1.trans g1, h2.trans g2, h3.trans g3⟩

theorem mineFold_Width (l : List (Int × Int)) :
    ∀ bd : Board, (l.foldl mineStep bd).Width = bd.Width := by
  induction l with
  | nil => intro bd; rfl
  | cons q tl ih => intro bd; simp only [List.foldl_cons]; exact ih (mineStep bd q)

theorem mineFold_Height (l : List (Int × Int)) :
    ∀ bd : Board, (l.foldl mineStep bd).Height = bd.Height := by
  induction l with
  | nil => intro bd; rfl
  | cons q tl ih => intro bd; simp only [List.foldl_cons]; exact ih (mineStep bd q)

theorem mineFold_WF (l : List (Int × Int)) :
    ∀ bd : Board, WF bd → WF (l.foldl mineStep bd) := by
  induction l with
  | nil => intro bd h; exact h
  | cons q tl ih =>
    intro bd h
    simp only [List.foldl_cons]
    exact ih _ (WF_setCell _ _ _ h)

theorem mineFold_isMine (l : List (Int × Int)) :
    ∀ bd : Board, WF bd → (∀ q ∈ l, isValidCell bd q.1 q.2) →
      ∀ p : Int × Int, isValidCell bd p.1 p.2 →
        ((getCell (l.foldl mineStep bd) p.1 p.2).IsMine = true ↔
          (getCell bd p.1 p.2).IsMine = true ∨ p ∈ l) := by
  induction l with
  | nil =>
    intro bd _ _ p _
    simp
  | cons q tl ih =>
    intro bd hwf hvl p hvp
    have hvq : isValidCell bd q.1 q.2 := hvl q (List.mem_cons_self _ _)
    have hwf' : WF (mineStep bd q) := WF_setCell _ _ _ hwf
    have hvl' : ∀ r ∈ tl, isValidCell (mineStep bd q) r.1 r.2 := fun r hr =>
      hvl r (List.mem_cons_of_mem _ hr)
    have hvp' : isValidCell (mineStep bd q) p.1 p.2 := hvp
    simp only [List.foldl_cons]
    rw [ih (mineStep bd q) hwf' hvl' p hvp']
    by_cases hpq : p = q
    · subst hpq
      have : getCell (mineStep bd p) p.1 p.2 =
          { getCell bd p.1 p.2 with IsMine := true } :=
        getCell_setCell_self _ hwf hvp
      rw [this]
      simp
    · have hne : getCell (mineStep bd q) p.1 p.2 = getCell bd p.1 p.2 := by
        refine getCell_setCell_ne bd _ ?_
        rintro ⟨hx, hy⟩
        obtain ⟨h1, h2⟩ := valid_eq_of_toNat hvq hvp hx hy
        exact hpq (Prod.ext h1.symm h2.symm)
      rw [hne]
      constructor
      · rintro (h | h)
        · exact Or.inl h
        · exact Or.inr (List.mem_cons_of_mem _ h)
      · rintro (h | h)
        · exact Or.inl h
        · rcases List.mem_cons.mp h with rfl | h'
          · exact absurd rfl hpq
          · exact Or.inr h'

/-- Counting membership in a duplicate-free sublist. -/
theorem countP_mem_eq_length (L : List (Int × Int)) (hL : L.Nodup) :
    ∀ l : List (Int × Int), l.Nodup → (∀ p ∈ l, p ∈ L) →
      (L.countP fun p => decide (p ∈ l)) = l.length := by
  intro l
  induction l with
  | nil => intro _ _; simp
  | cons q tl ih =>
    intro hnd hsub
    have hq : q ∈ L := hsub q (List.mem_cons_self _ _)
    have htl : ∀ p ∈ tl, p ∈ L := fun p hp => hsub p (List.mem_cons_of_mem _ hp)
    have hqtl : q ∉ tl := (List.nodup_cons.mp hnd).1
    have hflip := countP_flip_one L hL q
      (fun p => decide (p ∈ q :: tl)) (fun p => decide (p ∈ tl)) hq ?_ ?_ ?_
    · rw [hflip, ih (List.nodup_cons.mp hnd).2 htl]
      simp
    · intro x _ hxq
      simp only [decide_eq_decide, List.mem_cons]
      constructor
      · rintro (rfl | h)
        · exact absurd rfl hxq
        · exact h
      · exact fun h => Or.inr h
    · simp
    · simpa using hqtl

theorem maxMines_le (w h : Nat) : w * h * 5 / 9 ≤ w * h := by
  have h1 : w * h * 5 ≤ w * h * 9 := Nat.mul_le_mul_left _ (by norm_num)
  have h2 : w * h * 9 / 9 = w * h := Nat.mul_div_cancel _ (by norm_num)
  calc w * h * 5 / 9 ≤ w * h * 9 / 9 := Nat.div_le_div_right h1
    _ = w * h := h2

/-- Exact mine count of `placeMines` on a fresh board, for any shuffle
whose output is a permutation of its input. -/
theorem mineCount_placeMines (shuffle : List (Int × Int) → List (Int × Int))
    (w h mines : Nat)
    (hperm : (shuffle (allPositions (initBoard w h))).Perm
      (allPositions (initBoard w h))) :
    mineCount (placeMines shuffle (initBoard w h) mines) =
      min mines (w * h * 5 / 9) := by
  have hifm : (if mines > (initBoard w h).Width * (initBoard w h).Height * 5 / 9
      then (initBoard w h).Width * (initBoard w h).Height * 5 / 9 else mines) =
      min mines (w * h * 5 / 9) := by
    show (if mines > w * h * 5 / 9 then w * h * 5 / 9 else mines) = _
    split <;> omega
  rw [placeMines_eq_foldl, hifm]
  have hSnd : (shuffle (allPositions (initBoard w h))).Nodup :=
    hperm.symm.nodup (nodup_allPositions _)
  have hTsub : ∀ p ∈ (shuffle (allPositions (initBoard w h))).take
      (min mines (w * h * 5 / 9)), p ∈ allPositions (initBoard w h) :=
    fun p hp => hperm.mem_iff.mp (List.mem_of_mem_take hp)
  have hTnd : ((shuffle (allPositions (initBoard w h))).take
      (min mines (w * h * 5 / 9))).Nodup :=
    (List.take_sublist _ _).nodup hSnd
  have hvT : ∀ q ∈ (shuffle (allPositions (initBoard w h))).take
      (min mines (w * h * 5 / 9)), isValidCell (initBoard w h) q.1 q.2 :=
    fun q hq => (mem_allPositions _ q).mp (hTsub q hq)
  unfold mineCount
  rw [allPositions_congr (mineFold_Width _ _) (mineFold_Height _ _)]
  rw [List.countP_congr (q := fun p => decide (p ∈
      (shuffle (allPositions (initBoard w h))).take (min mines (w * h * 5 / 9)))) ?_]
  · rw [countP_mem_eq_length _ (nodup_allPositions _) _ hTnd hTsub, List.length_take]
    have hSL : (shuffle (allPositions (initBoard w h))).length = w * h := by
      rw [hperm.length_eq, length_allPositions]
      rfl
    rw [hSL]
    have := maxMines_le w h
    omega
  · intro p hp
    have hvp : isValidCell (initBoard w h) p.1 p.2 := (mem_allPositions _ p).mp hp
    rw [mineFold_isMine _ _ (WF_initBoard w h) hvT p hvp, getCell_initBoard]
    constructor
    · rintro (hfalse | hmem)
      · exact Bool.noConfusion hfalse
      · exact decide_eq_true hmem
    · intro hdec
      exact Or.inr (of_decide_eq_true hdec)

/-! ### Construction: adjacency counts -/

/-- One step of the `calculateAdjMines` loop. -/
def adjStep (bd : Board) (p : Int × Int) : Board :=
  if (getCell bd p.1 p.2).IsMine then bd
  else setCell bd p.1 p.2
    { getCell bd p.1 p.2 with AdjMines := countAdjMines bd p.1 p.2 }

theorem calculateAdjMines_eq_foldl (b : Board) :
    calculateAdjMines b = (allPositions b).foldl adjStep b := rfl

theorem adjStep_frame (bd : Board) (q : Int × Int) (x y : Int) :
    (getCell (adjStep bd q) x y).IsMine = (getCell bd x y).IsMine ∧
    (getCell (adjStep bd q) x y).Revealed = (getCell bd x y).Revealed ∧
    (getCell (adjStep bd q) x y).Flagged = (getCell bd x y).Flagged := by
  unfold adjStep
  split
  · exact ⟨rfl, rfl, rfl⟩
  · rcases getCell_setCell_cases bd q.1 q.2 x y
        { getCell bd q.1 q.2 with AdjMines := countAdjMines bd q.1 q.2 }
        with h | ⟨he, h⟩
    · rw [h]; exact ⟨rfl, rfl, rfl⟩
    · rw [h, he]; exact ⟨rfl, rfl, rfl⟩

theorem adjStep_Width (bd : Board) (q : Int × Int) :
    (adjStep bd q).Width = bd.Width := by
  unfold adjStep; split <;> rfl

theorem adjStep_Height (bd : Board) (q : Int × Int) :
    (adjStep bd q).Height = bd.Height := by
  unfold adjStep; split <;> rfl

theorem adjStep_WF (bd : Board) (q : Int × Int) (hwf : WF bd) :
    WF (adjStep bd q) := by
  unfold adjStep
  split
  · exact hwf
  · exact WF_setCell _ _ _ hwf

theorem adjFold_frame (l : List (Int × Int)) :
    ∀ (bd : Board) (x y : Int),
      (getCell (l.foldl adjStep bd) x y).IsMine = (getCell bd x y).IsMine ∧
      (getCell (l.foldl adjStep bd) x y).Revealed = (getCell bd x y).Revealed ∧
      (getCell (l.foldl adjStep bd) x y).Flagged = (getCell bd x y).Flagged := by
  induction l with
  | nil => intro bd x y; exact ⟨rfl, rfl, rfl⟩
  | cons q tl ih =>
    intro bd x y
    obtain ⟨h1, h2, h3⟩ := ih (adjStep bd q) x y
    obtain ⟨g1, g2, g3⟩ := adjStep_frame bd q x y
    simp only [List.foldl_cons]
    exact ⟨h1.trans g1, h2.trans g2, h3.trans g3⟩

theorem adjFold_Width (l : List (Int × Int)) :
    ∀ bd : Board, (l.foldl adjStep bd).Width = bd.Width := by
  induction l with
  | nil => intro bd; rfl
  | cons q tl ih =>
    intro bd
    simp only [List.foldl_cons]
    exact (ih (adjStep bd q)).trans (adjStep_Width bd q)

theorem adjFold_Height (l : List (Int × Int)) :
    ∀ bd : Board, (l.foldl adjStep bd).Height = bd.Height := by
  induction l with
  | nil => intro bd; rfl
  | cons q tl ih =>
    intro bd
    simp only [List.foldl_cons]
    exact (ih (adjStep bd q)).trans (adjStep_Height bd q)

theorem adjFold_WF (l : List (Int × Int)) :
    ∀ bd : Board, WF bd → WF (l.foldl adjStep bd) := by
  induction l with
  | nil => intro bd h; exact h
  | cons q tl ih =>
    intro bd h
    simp only [List.foldl_cons]
    exact ih _ (adjStep_WF bd q h)

theorem countAdjMines_congr {b b' : Board} (hw : b.Width = b'.Width)
    (hh : b.Height = b'.Height)
    (hm : ∀ x y : Int, (getCell b x y).IsMine = (getCell b' x y).IsMine)
    (x y : Int) : countAdjMines b x y = countAdjMines b' x y := by
  unfold countAdjMines
  refine List.countP_congr ?_
  intro d _
  have hv : decide (isValidCell b (x + d.1) (y + d.2)) =
      decide (isValidCell b' (x + d.1) (y + d.2)) := by
    rw [decide_eq_decide]
    unfold isValidCell
    rw [hw, hh]
  rw [hv, hm (x + d.1) (y + d.2)]

/-- Main property of the `calculateAdjMines` loop: every processed
non-mine cell receives the adjacent-mine count of the reference board,
and unprocessed cells are untouched. -/
theorem adjFold_main (b : Board) (l : List (Int × Int)) :
    ∀ bd : Board, WF bd → bd.Width = b.Width → bd.Height = b.Height →
      (∀ x y : Int, (getCell bd x y).IsMine = (getCell b x y).IsMine) →
      l.Nodup → (∀ q ∈ l, isValidCell bd q.1 q.2) →
      (∀ p ∈ l, (getCell bd p.1 p.2).IsMine = false →
        (getCell (l.foldl adjStep bd) p.1 p.2).AdjMines = countAdjMines b p.1 p.2) ∧
      (∀ p : Int × Int, isValidCell bd p.1 p.2 → p ∉ l →
        getCell (l.foldl adjStep bd) p.1 p.2 = getCell bd p.1 p.2) := by
  induction l with
  | nil =>
    intro bd _ _ _ _ _ _
    exact ⟨fun p hp => absurd hp (List.not_mem_nil p), fun p _ _ => rfl⟩
  | cons q tl ih =>
    intro bd hwf hW hH hm hnd hvl
    have hvq : isValidCell bd q.1 q.2 := hvl q (List.mem_cons_self _ _)
    have hwf' : WF (adjStep bd q) := adjStep_WF bd q hwf
    have hW' : (adjStep bd q).Width = b.Width := (adjStep_Width bd q).trans hW
    have hH' : (adjStep bd q).Height = b.Height := (adjStep_Height bd q).trans hH
    have hm' : ∀ x y : Int, (getCell (adjStep bd q) x y).IsMine = (getCell b x y).IsMine :=
      fun x y => ((adjStep_frame bd q x y).1).trans (hm x y)
    have hvtrans : ∀ x y : Int, isValidCell (adjStep bd q) x y ↔ isValidCell bd x y := by
      intro x y
      unfold isValidCell
      rw [adjStep_Width, adjStep_Height]
    have hvl' : ∀ r ∈ tl, isValidCell (adjStep bd q) r.1 r.2 := fun r hr =>
      (hvtrans r.1 r.2).mpr (hvl r (List.mem_cons_of_mem _ hr))
    have hqtl : q ∉ tl := (List.nodup_cons.mp hnd).1
    obtain ⟨ih1, ih2⟩ := ih (adjStep bd q) hwf' hW' hH' hm' (List.nodup_cons.mp hnd).2 hvl'
    constructor
    · intro p hp hpmine
      simp only [List.foldl_cons]
      rcases List.mem_cons.mp hp with rfl | hp'
      · have hset : getCell (adjStep bd p) p.1 p.2 =
            { getCell bd p.1 p.2 with AdjMines := countAdjMines bd p.1 p.2 } := by
          unfold adjStep
          rw [if_neg (by rw [hpmine]; exact Bool.false_ne_true)]
          exact getCell_setCell_self _ hwf hvq
        rw [ih2 p ((hvtrans p.1 p.2).mpr hvq) hqtl, hset]
        exact countAdjMines_congr hW hH hm p.1 p.2
      · refine ih1 p hp' ?_
        rw [(adjStep_frame bd q p.1 p.2).1]
        exact hpmine
    · intro p hpv hpni
      simp only [List.foldl_cons]
      have hpntl : p ∉ tl := fun h => hpni (List.mem_cons_of_mem _ h)
      have hpnq : p ≠ q := fun h => hpni (h ▸ List.mem_cons_self _ _)
      rw [ih2 p ((hvtrans p.1 p.2).mpr hpv) hpntl]
      unfold adjStep
      split
      · rfl
      · refine getCell_setCell_ne bd _ ?_
        rintro ⟨hx, hy⟩
        obtain ⟨h1, h2⟩ := valid_eq_of_toNat hvq hpv hx hy
        exact hpnq (Prod.ext h1.symm h2.symm)

/-! ### Properties of a freshly constructed board -/

/-- Every stored `AdjMines` value of a non-mine cell equals the actual
count of adjacent mines (the invariant `calculateAdjMines` establishes). -/
def adjCorrect (b : Board) : Prop :=
  ∀ p ∈ allPositions b, (getCell b p.1 p.2).IsMine = false →
    (getCell b p.1 p.2).AdjMines = countAdjMines b p.1 p.2

instance (b : Board) : Decidable (adjCorrect b) := by
  unfold adjCorrect; infer_instance

theorem NewBoard_def (shuffle : List (Int × Int) → List (Int × Int)) (w h m : Nat) :
    NewBoard shuffle w h m =
      (allPositions (placeMines shuffle (initBoard w h) m)).foldl adjStep
        (placeMines shuffle (initBoard w h) m) := rfl

theorem WF_placeMines (shuffle : List (Int × Int) → List (Int × Int)) (w h m : Nat) :
    WF (placeMines shuffle (initBoard w h) m) := by
  rw [placeMines_eq_foldl]
  exact mineFold_WF _ _ (WF_initBoard w h)

theorem Width_placeMines (shuffle : List (Int × Int) → List (Int × Int)) (w h m : Nat) :
    (placeMines shuffle (initBoard w h) m).Width = w := by
  rw [placeMines_eq_foldl]
  exact mineFold_Width _ _

theorem Height_placeMines (shuffle : List (Int × Int) → List (Int × Int)) (w h m : Nat) :
    (placeMines shuffle (initBoard w h) m).Height = h := by
  rw [placeMines_eq_foldl]
  exact mineFold_Height _ _

theorem WF_NewBoard (shuffle : List (Int × Int) → List (Int × Int)) (w h m : Nat) :
    WF (NewBoard shuffle w h m) := by
  rw [NewBoard_def]
  exact adjFold_WF _ _ (WF_placeMines shuffle w h m)

theorem Width_NewBoard (shuffle : List (Int × Int) → List (Int × Int)) (w h m : Nat) :
    (NewBoard shuffle w h m).Width = w := by
  rw [NewBoard_def]
  exact (adjFold_Width _ _).trans (Width_placeMines shuffle w h m)

theorem Height_NewBoard (shuffle : List (Int × Int) → List (Int × Int)) (w h m : Nat) :
    (NewBoard shuffle w h m).Height = h := by
  rw [NewBoard_def]
  exact (adjFold_Height _ _).trans (Height_placeMines shuffle w h m)

theorem revealed_NewBoard (shuffle : List (Int × Int) → List (Int × Int))
    (w h m : Nat) (x y : Int) :
    (getCell (NewBoard shuffle w h m) x y).Revealed = false := by
  rw [NewBoard_def, (adjFold_frame _ _ x y).2.1, placeMines_eq_foldl,
    (mineFold_frame _ _ x y).2.1, getCell_initBoard]
  rfl

theorem flagged_NewBoard (shuffle : List (Int × Int) → List (Int × Int))
    (w h m : Nat) (x y : Int) :
    (getCell (NewBoard shuffle w h m) x y).Flagged = false := by
  rw [NewBoard_def, (adjFold_frame _ _ x y).2.2, placeMines_eq_foldl,
    (mineFold_frame _ _ x y).2.2, getCell_initBoard]
  rfl

theorem boardClosed_NewBoard (shuffle : List (Int × Int) → List (Int × Int))
    (w h m : Nat) : boardClosed (NewBoard shuffle w h m) := by
  intro p _ _ hrev
  rw [revealed_NewBoard] at hrev
  exact absurd hrev Bool.false_ne_true

theorem mineCount_NewBoard (shuffle : List (Int × Int) → List (Int × Int))
    (w h m : Nat)
    (hperm : (shuffle (allPositions (initBoard w h))).Perm
      (allPositions (initBoard w h))) :
    mineCount (NewBoard shuffle w h m) = min m (w * h * 5 / 9) := by
  have h1 : mineCount (NewBoard shuffle w h m) =
      mineCount (placeMines shuffle (initBoard w h) m) := by
    unfold mineCount
    rw [NewBoard_def, allPositions_congr (adjFold_Width _ _) (adjFold_Height _ _)]
    refine List.countP_congr ?_
    intro p _
    rw [(adjFold_frame _ _ p.1 p.2).1]
  rw [h1]
  exact mineCount_placeMines shuffle w h m hperm

theorem adjCorrect_NewBoard (shuffle : List (Int × Int) → List (Int × Int))
    (w h m : Nat) : adjCorrect (NewBoard shuffle w h m) := by
  have hwf : WF (placeMines shuffle (initBoard w h) m) := WF_placeMines shuffle w h m
  obtain ⟨main, _⟩ := adjFold_main (placeMines shuffle (initBoard w h) m)
    (allPositions (placeMines shuffle (initBoard w h) m))
    (placeMines shuffle (initBoard w h) m) hwf rfl rfl (fun _ _ => rfl)
    (nodup_allPositions _) (fun q hq => (mem_allPositions _ q).mp hq)
  intro p hp hpmine
  rw [NewBoard_def] at hp hpmine ⊢
  have hpos : p ∈ allPositions (placeMines shuffle (initBoard w h) m) := by
    rw [allPositions_congr (adjFold_Width _ _) (adjFold_Height _ _)] at hp
    exact hp
  have hmine_pm : (getCell (placeMines shuffle (initBoard w h) m) p.1 p.2).IsMine
      = false := by
    rw [← (adjFold_frame (allPositions (placeMines shuffle (initBoard w h) m))
      (placeMines shuffle (initBoard w h) m) p.1 p.2).1]
    exact hpmine
  rw [main p hpos hmine_pm]
  refine countAdjMines_congr ?_ ?_ ?_ p.1 p.2
  · exact (adjFold_Width _ _).symm
  · exact (adjFold_Height _ _).symm
  · intro x y
    exact ((adjFold_frame _ _ x y).1).symm

/-! ### FlagCell frame lemmas -/

theorem FlagCell_noop {b : Board} {x y : Int}
    (h : ¬ isValidCell b x y ∨ (getCell b x y).Revealed) : FlagCell b x y = b := by
  unfold FlagCell
  rw [if_pos h]

theorem FlagCell_frame (b : Board) (x y x' y' : Int) :
    (getCell (FlagCell b x y) x' y').IsMine = (getCell b x' y').IsMine ∧
    (getCell (FlagCell b x y) x' y').AdjMines = (getCell b x' y').AdjMines ∧
    (getCell (FlagCell b x y) x' y').Revealed = (getCell b x' y').Revealed := by
  unfold FlagCell
  split
  · exact ⟨rfl, rfl, rfl⟩
  · rcases getCell_setCell_cases b x y x' y'
        { getCell b x y with Flagged := !(getCell b x y).Flagged } with hc | ⟨he, hc⟩
    · rw [hc]; exact ⟨rfl, rfl, rfl⟩
    · rw [hc, he]; exact ⟨rfl, rfl, rfl⟩

theorem FlagCell_Width (b : Board) (x y : Int) : (FlagCell b x y).Width = b.Width := by
  unfold FlagCell; split <;> rfl

theorem FlagCell_Height (b : Board) (x y : Int) : (FlagCell b x y).Height = b.Height := by
  unfold FlagCell; split <;> rfl

theorem WF_FlagCell (b : Board) (x y : Int) (hwf : WF b) : WF (FlagCell b x y) := by
  unfold FlagCell
  split
  · exact hwf
  · exact WF_setCell _ _ _ hwf

/-! ### Congruences for the game-state invariants -/

theorem adjCorrect_congr {b b' : Board} (hw : b.Width = b'.Width)
    (hh : b.Height = b'.Height)
    (hm : ∀ x y : Int, (getCell b x y).IsMine = (getCell b' x y).IsMine)
    (ha : ∀ x y : Int, (getCell b x y).AdjMines = (getCell b' x y).AdjMines)
    (hadj : adjCorrect b) : adjCorrect b' := by
  intro p hp hpm
  have hp' : p ∈ allPositions b := by
    rw [allPositions_congr hw hh]; exact hp
  have h1 := hadj p hp' (by rw [hm p.1 p.2]; exact hpm)
  rw [← ha p.1 p.2, h1]
  exact countAdjMines_congr hw hh hm p.1 p.2

theorem boardClosed_congr {b b' : Board} (hw : b.Width = b'.Width)
    (hh : b.Height = b'.Height)
    (hm : ∀ x y : Int, (getCell b x y).IsMine = (getCell b' x y).IsMine)
    (ha : ∀ x y : Int, (getCell b x y).AdjMines = (getCell b' x y).AdjMines)
    (hr : ∀ x y : Int, (getCell b x y).Revealed = (getCell b' x y).Revealed)
    (hcl : boardClosed b) : boardClosed b' := by
  have hviff : ∀ x y : Int, isValidCell b' x y ↔ isValidCell b x y := by
    intro x y; unfold isValidCell; rw [hw, hh]
  intro p hp hz hrev d hd hvd
  have hp' : p ∈ allPositions b := by
    rw [allPositions_congr hw hh]; exact hp
  have hz' : zeroCell b p :=
    ⟨(hviff p.1 p.2).mp hz.1, (hm p.1 p.2).symm ▸ hz.2.1, (ha p.1 p.2).symm ▸ hz.2.2⟩
  have hrev' : (getCell b p.1 p.2).Revealed = true := by rw [hr p.1 p.2]; exact hrev
  have hvd' : isValidCell b (p.1 + d.1) (p.2 + d.2) := (hviff _ _).mp hvd
  have := hcl p hp' hz' hrev' d hd hvd'
  rw [← hr (p.1 + d.1) (p.2 + d.2)]
  exact this

theorem adjCorrect_staticEq {b b' : Board} (h : staticEq b b')
    (hadj : adjCorrect b) : adjCorrect b' :=
  adjCorrect_congr h.1 h.2.1 (fun x y => (h.2.2.2.2 x y).1)
    (fun x y => (h.2.2.2.2 x y).2.1) hadj

/-! ### The operation interface of the game loop -/

/-- The operations the interactive loop can invoke on the board;
`checkWin` reads the board without modifying it. -/
inductive GameOp where
  | reveal : Int → Int → GameOp
  | flag : Int → Int → GameOp
  | checkWin : GameOp

/-- Effect of one operation on the board state. -/
def applyOp (b : Board) : GameOp → Board
  | GameOp.reveal x y => (RevealCell b x y).1
  | GameOp.flag x y => FlagCell b x y
  | GameOp.checkWin => b

/-- Effect of a sequence of operations. -/
def applyOps (b : Board) (l : List GameOp) : Board := l.foldl applyOp b

theorem invariants_applyOp (b : Board) (op : GameOp)
    (h : WF b ∧ boardClosed b ∧ adjCorrect b) :
    WF (applyOp b op) ∧ boardClosed (applyOp b op) ∧ adjCorrect (applyOp b op) := by
  obtain ⟨hwf, hcl, hadj⟩ := h
  cases op with
  | reveal x y =>
    refine ⟨WF_revealFuel _ b x y hwf, boardClosed_RevealCell x y hwf hcl, ?_⟩
    exact adjCorrect_staticEq (staticEq_revealFuel _ b x y) hadj
  | flag x y =>
    refine ⟨WF_FlagCell b x y hwf, ?_, ?_⟩
    · exact boardClosed_congr (FlagCell_Width b x y).symm (FlagCell_Height b x y).symm
        (fun x' y' => ((FlagCell_frame b x y x' y').1).symm)
        (fun x' y' => ((FlagCell_frame b x y x' y').2.1).symm)
        (fun x' y' => ((FlagCell_frame b x y x' y').2.2).symm) hcl
    · exact adjCorrect_congr (FlagCell_Width b x y).symm (FlagCell_Height b x y).symm
        (fun x' y' => ((FlagCell_frame b x y x' y').1).symm)
        (fun x' y' => ((FlagCell_frame b x y x' y').2.1).symm) hadj
  | checkWin => exact ⟨hwf, hcl, hadj⟩

theorem invariants_applyOps (l : List GameOp) :
    ∀ b : Board, WF b ∧ boardClosed b ∧ adjCorrect b →
      WF (applyOps b l) ∧ boardClosed (applyOps b l) ∧ adjCorrect (applyOps b l) := by
  induction l with
  | nil => intro b h; exact h
  | cons op tl ih =>
    intro b h
    exact ih (applyOp b op) (invariants_applyOp b op h)

theorem invariants_NewBoard (shuffle : List (Int × Int) → List (Int × Int))
    (w h m : Nat) :
    WF (NewBoard shuffle w h m) ∧ boardClosed (NewBoard shuffle w h m) ∧
      adjCorrect (NewBoard shuffle w h m) :=
  ⟨WF_NewBoard shuffle w h m, boardClosed_NewBoard shuffle w h m,
    adjCorrect_NewBoard shuffle w h m⟩

/-! ### Deterministic form of the set/get interaction -/

theorem getCell_setCell_ite (b : Board) (x y x' y' : Int) (c : Cell) :
    getCell (setCell b x y c) x' y' =
      if y.toNat = y'.toNat ∧ y.toNat < b.Cells.length ∧ x.toNat = x'.toNat ∧
          x.toNat < (getRow b y).length
      then c else getCell b x' y' := by
  rcases eq_or_ne y.toNat y'.toNat with hy | hy
  · rcases Nat.lt_or_ge y.toNat b.Cells.length with hylt | hyge
    · have hrowEq : getRow (setCell b x y c) y' = (getRow b y).set x.toNat c := by
        have h1 := getRow_setCell_self (b := b) (x := x) (c := c) hylt
        calc getRow (setCell b x y c) y'
            = getRow (setCell b x y c) y := by unfold getRow; rw [← hy]
          _ = (getRow b y).set x.toNat c := h1
      have hyy : getRow b y = getRow b y' := by unfold getRow; rw [hy]
      rcases eq_or_ne x.toNat x'.toNat with hx | hx
      · rcases Nat.lt_or_ge x.toNat (getRow b y).length with hxlt | hxge
        · rw [if_pos ⟨hy, hylt, hx, hxlt⟩]
          unfold getCell
          rw [hrowEq, ← hx, List.getD_eq_getElem?_getD, List.getElem?_set_self hxlt]
          rfl
        · rw [if_neg (by rintro ⟨_, _, _, hcon⟩; omega)]
          unfold getCell
          rw [hrowEq, List.set_eq_of_length_le hxge, hyy]
      · rw [if_neg (by rintro ⟨_, _, hcon, _⟩; exact hx hcon)]
        unfold getCell
        rw [hrowEq, List.getD_eq_getElem?_getD, List.getElem?_set_ne hx,
          ← List.getD_eq_getElem?_getD, hyy]
    · rw [if_neg (by rintro ⟨_, hcon, _, _⟩; omega), setCell_oob hyge]
  · rw [if_neg (by rintro ⟨hcon, _, _, _⟩; exact hy hcon)]
    unfold getCell
    rw [getRow_setCell_ne hy]

/-! ### CheckWin as a statement about coordinates -/

theorem CheckWin_iff {b : Board} (hwf : WF b) :
    CheckWin b = true ↔ ∀ x y : Int, isValidCell b x y →
      (getCell b x y).IsMine = false → (getCell b x y).Revealed = true := by
  obtain ⟨hlen, hrow⟩ := hwf
  unfold CheckWin
  rw [List.all_eq_true]
  constructor
  · intro h x y hv hm
    obtain ⟨hx, hy⟩ := toNat_lt_of_valid hv
    have hylt : y.toNat < b.Cells.length := by omega
    have hrl : (b.Cells[y.toNat]).length = b.Width :=
      hrow _ (List.getElem_mem hylt)
    have hxlt : x.toNat < (b.Cells[y.toNat]).length := by omega
    have hcell : getCell b x y = (b.Cells[y.toNat])[x.toNat] := by
      unfold getCell
      rw [getRow_eq_getElem hylt, List.getD_eq_getElem _ _ hxlt]
    have h1 := h _ (List.getElem_mem hylt)
    rw [List.all_eq_true] at h1
    have h2 := h1 _ (List.getElem_mem hxlt)
    rw [hcell]
    rw [hcell] at hm
    rcases Bool.or_eq_true_iff.mp h2 with h3 | h3
    · rw [hm] at h3; exact Bool.noConfusion h3
    · exact h3
  · intro h row hmem
    rw [List.all_eq_true]
    intro c hc
    obtain ⟨i, hi, rfl⟩ := List.mem_iff_getElem.mp hmem
    obtain ⟨j, hj, rfl⟩ := List.mem_iff_getElem.mp hc
    have hrl : (b.Cells[i]).length = b.Width := hrow _ (List.getElem_mem hi)
    have hv : isValidCell b (j : Int) (i : Int) := by
      refine ⟨by positivity, ?_, by positivity, ?_⟩ <;> [skip; skip] <;>
        exact_mod_cast (by omega)
    have hcell : getCell b (j : Int) (i : Int) = (b.Cells[i])[j] := by
      unfold getCell getRow
      simp only [Int.toNat_natCast]
      rw [List.getD_eq_getElem _ _ hi, List.getD_eq_getElem _ _ hj]
    by_cases hmine : ((b.Cells[i])[j]).IsMine = true
    · rw [Bool.or_eq_true_iff]
      exact Or.inl hmine
    · have hfalse : ((b.Cells[i])[j]).IsMine = false := by
        revert hmine
        cases ((b.Cells[i])[j]).IsMine <;> simp
      have hrev := h (j : Int) (i : Int) hv (by rw [hcell]; exact hfalse)
      rw [hcell] at hrev
      rw [Bool.or_eq_true_iff]
      exact Or.inr hrev

/-! ### Direct characterizations of RevealCell -/

theorem RevealCell_noop {b : Board} {x y : Int}
    (h : ¬ isValidCell b x y ∨ (getCell b x y).Revealed) :
    RevealCell b x y = (b, false) := by
  unfold RevealCell
  rw [revealFuel, if_pos h]

theorem RevealCell_mine {b : Board} {x y : Int} (hwf : WF b)
    (hv : isValidCell b x y) (hnr : (getCell b x y).Revealed = false)
    (hm : (getCell b x y).IsMine = true) :
    RevealCell b x y = (setRevealed b x y, true) := by
  unfold RevealCell
  rw [revealFuel, if_neg (by push_neg; exact ⟨hv, by rw [hnr]; exact Bool.false_ne_true⟩)]
  simp only
  rw [if_pos (by rw [getCell_setRevealed_self hwf hv]; exact hm)]

theorem RevealCell_bool_iff (b : Board) (x y : Int) :
    (RevealCell b x y).2 = true ↔
      isValidCell b x y ∧ (getCell b x y).Revealed = false ∧
        (getCell b x y).IsMine = true := by
  unfold RevealCell
  rw [revealFuel]
  by_cases hc : ¬ isValidCell b x y ∨ (getCell b x y).Revealed
  · rw [if_pos hc]
    simp only [Prod.snd]
    constructor
    · intro h; exact Bool.noConfusion h
    · rintro ⟨hv, hnr, _⟩
      rcases hc with h | h
      · exact absurd hv h
      · rw [hnr] at h; exact Bool.noConfusion h
  · rw [if_neg hc]
    push_neg at hc
    obtain ⟨hv, hnr⟩ := hc
    have hnr' : (getCell b x y).Revealed = false := by
      revert hnr; cases (getCell b x y).Revealed <;> simp
    have hmEq : (getCell (setRevealed b x y) x y).IsMine = (getCell b x y).IsMine :=
      ((staticEq_setRevealed b x y).2.2.2.2 x y).1.symm
    simp only
    by_cases hm : (getCell (setRevealed b x y) x y).IsMine = true
    · rw [if_pos hm]
      simp only
      constructor
      · intro _; exact ⟨hv, hnr', by rw [← hmEq]; exact hm⟩
      · intro _; trivial
    · rw [if_neg hm]
      have hmb : ¬ (getCell b x y).IsMine = true := by rw [← hmEq]; exact hm
      by_cases h0 : (getCell (setRevealed b x y) x y).AdjMines = 0
      · rw [if_pos h0]
        simp only
        constructor
        · intro h; exact Bool.noConfusion h
        · rintro ⟨_, _, hmm⟩; exact absurd hmm hmb
      · rw [if_neg h0]
        simp only
        constructor
        · intro h; exact Bool.noConfusion h
        · rintro ⟨_, _, hmm⟩; exact absurd hmm hmb

/-- Reveal on a non-mine target never reports a hit. -/
theorem RevealCell_safe_bool (b : Board) (x y : Int)
    (hm : (getCell b x y).IsMine = false) : (RevealCell b x y).2 = false := by
  by_cases h : (RevealCell b x y).2 = true
  · obtain ⟨_, _, hmm⟩ := (RevealCell_bool_iff b x y).mp h
    rw [hm] at hmm
    exact Bool.noConfusion hmm
  · revert h; cases (RevealCell b x y).2 <;> simp

/-! ### Revealed cells stay revealed across whole plays -/

theorem revealed_mono_applyOp (b : Board) (op : GameOp) (x y : Int)
    (h : (getCell b x y).Revealed = true) :
    (getCell (applyOp b op) x y).Revealed = true := by
  cases op with
  | reveal a c => exact revealed_mono_revealFuel _ b a c x y h
  | flag a c =>
    show (getCell (FlagCell b a c) x y).Revealed = true
    rw [(FlagCell_frame b a c x y).2.2]
    exact h
  | checkWin => exact h

theorem revealed_mono_applyOps (l : List GameOp) :
    ∀ (b : Board) (x y : Int), (getCell b x y).Revealed = true →
      (getCell (applyOps b l) x y).Revealed = true := by
  induction l with
  | nil => intro b x y h; exact h
  | cons op tl ih =>
    intro b x y h
    exact ih (applyOp b op) x y (revealed_mono_applyOp b op x y h)

theorem applyOps_append (b : Board) (l1 l2 : List GameOp) :
    applyOps b (l1 ++ l2) = applyOps (applyOps b l1) l2 :=
  List.foldl_append _ _ _ _

/-! ### Flags do not interfere with revealing -/

/-- Boards that agree on everything except possibly `Flagged` fields. -/
def flagEquiv (b b' : Board) : Prop :=
  b.Width = b'.Width ∧ b.Height = b'.Height ∧ b.Cells.length = b'.Cells.length ∧
  (∀ i : Nat, (b.Cells.getD i []).length = (b'.Cells.getD i []).length) ∧
  ∀ x y : Int, (getCell b x y).IsMine = (getCell b' x y).IsMine ∧
    (getCell b x y).AdjMines = (getCell b' x y).AdjMines ∧
    (getCell b x y).Revealed = (getCell b' x y).Revealed

theorem flagEquiv_setRevealed {b b' : Board} (h : flagEquiv b b') (x y : Int) :
    flagEquiv (setRevealed b x y) (setRevealed b' x y) := by
  obtain ⟨hw, hh, hl, hrows, hpt⟩ := h
  have hsetB : setRevealed b x y =
      setCell b x y { getCell b x y with Revealed := true } := rfl
  have hsetB' : setRevealed b' x y =
      setCell b' x y { getCell b' x y with Revealed := true } := rfl
  refine ⟨hw, hh, ?_, ?_, ?_⟩
  · rw [hsetB, hsetB']
    show (b.Cells.set _ _).length = (b'.Cells.set _ _).length
    rw [List.length_set, List.length_set]
    exact hl
  · intro i
    rw [hsetB, hsetB']
    show ((b.Cells.set _ _).getD i []).length = ((b'.Cells.set _ _).getD i []).length
    rw [getD_set_row_length _ _ _ (by rw [List.length_set]; rfl),
      getD_set_row_length _ _ _ (by rw [List.length_set]; rfl)]
    exact hrows i
  · intro x' y'
    rw [hsetB, hsetB', getCell_setCell_ite, getCell_setCell_ite]
    have hrowlen : (getRow b y).length = (getRow b' y).length := hrows y.toNat
    by_cases hcb : y.toNat = y'.toNat ∧ y.toNat < b.Cells.length ∧
        x.toNat = x'.toNat ∧ x.toNat < (getRow b y).length
    · have hcb' : y.toNat = y'.toNat ∧ y.toNat < b'.Cells.length ∧
          x.toNat = x'.toNat ∧ x.toNat < (getRow b' y).length := by
        obtain ⟨h1, h2, h3, h4⟩ := hcb
        exact ⟨h1, by omega, h3, by omega⟩
      rw [if_pos hcb, if_pos hcb']
      obtain ⟨m1, a1, _⟩ := hpt x y
      exact ⟨m1, a1, rfl⟩
    · have hcb' : ¬ (y.toNat = y'.toNat ∧ y.toNat < b'.Cells.length ∧
          x.toNat = x'.toNat ∧ x.toNat < (getRow b' y).length) := by
        intro hcon
        obtain ⟨h1, h2, h3, h4⟩ := hcon
        exact hcb ⟨h1, by omega, h3, by omega⟩
      rw [if_neg hcb, if_neg hcb']
      exact hpt x' y'

theorem unrevealedCount_flagEquiv {b b' : Board} (h : flagEquiv b b') :
    unrevealedCount b = unrevealedCount b' := by
  unfold unrevealedCount
  rw [allPositions_congr h.1 h.2.1]
  refine List.countP_congr ?_
  intro p _
  rw [(h.2.2.2.2 p.1 p.2).2.2]

theorem revealFuel_flagEquiv (f : Nat) :
    ∀ (b b' : Board) (x y : Int), flagEquiv b b' →
      (revealFuel f b x y).2 = (revealFuel f b' x y).2 ∧
      flagEquiv ((revealFuel f b x y).1) ((revealFuel f b' x y).1) := by
  induction f with
  | zero => intro b b' x y h; exact ⟨rfl, h⟩
  | succ f ih =>
    intro b b' x y h
    have hviff : isValidCell b x y ↔ isValidCell b' x y := by
      unfold isValidCell; rw [h.1, h.2.1]
    have hreve : (getCell b x y).Revealed = (getCell b' x y).Revealed :=
      (h.2.2.2.2 x y).2.2
    by_cases hc : ¬ isValidCell b x y ∨ (getCell b x y).Revealed
    · have hc' : ¬ isValidCell b' x y ∨ (getCell b' x y).Revealed := by
        rcases hc with h1 | h1
        · exact Or.inl (fun hv => h1 (hviff.mpr hv))
        · exact Or.inr (by rw [← hreve]; exact h1)
      rw [revealFuel, revealFuel, if_pos hc, if_pos hc']
      exact ⟨rfl, h⟩
    · have hc' : ¬ (¬ isValidCell b' x y ∨ (getCell b' x y).Revealed) := by
        intro hcon
        rcases hcon with h1 | h1
        · exact hc (Or.inl (fun hv => h1 (hviff.mp hv)))
        · exact hc (Or.inr (by rw [hreve]; exact h1))
      rw [revealFuel, revealFuel, if_neg hc, if_neg hc']
      simp only
      have h1 : flagEquiv (setRevealed b x y) (setRevealed b' x y) :=
        flagEquiv_setRevealed h x y
      have hmEq : (getCell (setRevealed b x y) x y).IsMine =
          (getCell (setRevealed b' x y) x y).IsMine := (h1.2.2.2.2 x y).1
      by_cases hm : (getCell (setRevealed b x y) x y).IsMine = true
      · have hm2 : (getCell (setRevealed b' x y) x y).IsMine = true := by
          rw [← hmEq]; exact hm
        rw [if_pos hm, if_pos hm2]
        exact ⟨rfl, h1⟩
      · have hm2 : ¬ (getCell (setRevealed b' x y) x y).IsMine = true := by
          rw [← hmEq]; exact hm
        rw [if_neg hm, if_neg hm2]
        have haEq : (getCell (setRevealed b x y) x y).AdjMines =
            (getCell (setRevealed b' x y) x y).AdjMines := (h1.2.2.2.2 x y).2.1
        by_cases h0 : (getCell (setRevealed b x y) x y).AdjMines = 0
        · have h02 : (getCell (setRevealed b' x y) x y).AdjMines = 0 := by
            rw [← haEq]; exact h0
          rw [if_pos h0, if_pos h02]
          have hfoldl : ∀ (l : List (Int × Int)) (acc acc' : Board), flagEquiv acc acc' →
              flagEquiv
                (l.foldl (fun a d => (revealFuel f a (x + d.1) (y + d.2)).1) acc)
                (l.foldl (fun a d => (revealFuel f a (x + d.1) (y + d.2)).1) acc') := by
            intro l
            induction l with
            | nil => intro acc acc' ha; exact ha
            | cons hd tl ihl =>
              intro acc acc' ha
              exact ihl _ _ ((ih acc acc' (x + hd.1) (y + hd.2) ha).2)
          exact ⟨rfl, hfoldl neighborOffsets _ _ h1⟩
        · have h02 : ¬ (getCell (setRevealed b' x y) x y).AdjMines = 0 := by
            rw [← haEq]; exact h0
          rw [if_neg h0, if_neg h02]
          exact ⟨rfl, h1⟩

theorem RevealCell_flagEquiv {b b' : Board} (h : flagEquiv b b') (x y : Int) :
    (RevealCell b x y).2 = (RevealCell b' x y).2 ∧
      flagEquiv ((RevealCell b x y).1) ((RevealCell b' x y).1) := by
  unfold RevealCell
  rw [unrevealedCount_flagEquiv h]
  exact revealFuel_flagEquiv _ b b' x y h

/-- Reveal never changes any flag. -/
theorem RevealCell_flags_unchanged (b : Board) (x y x' y' : Int) :
    (getCell ((RevealCell b x y).1) x' y').Flagged = (getCell b x' y').Flagged :=
  ((staticEq_revealFuel _ b x y).2.2.2.2 x' y').2.2.symm

/-! ### The AdjMines value stored on mine cells is never observed -/

theorem getCell_natCast (b : Board) (i j : Nat) :
    getCell b (j : Int) (i : Int) = (b.Cells.getD i []).getD j defaultCell := by
  unfold getCell getRow
  simp only [Int.toNat_natCast]

theorem CheckWin_eq_true_iff_getD (b : Board) : CheckWin b = true ↔
    ∀ i j : Nat, i < b.Cells.length → j < (b.Cells.getD i []).length →
      (((b.Cells.getD i []).getD j defaultCell).IsMine ||
        ((b.Cells.getD i []).getD j defaultCell).Revealed) = true := by
  unfold CheckWin
  rw [List.all_eq_true]
  constructor
  · intro h i j hi hj
    have h1 := h _ (List.getElem_mem hi)
    rw [List.all_eq_true] at h1
    rw [List.getD_eq_getElem _ _ hi] at hj ⊢
    rw [List.getD_eq_getElem _ _ hj]
    exact h1 _ (List.getElem_mem hj)
  · intro h row hrow
    rw [List.all_eq_true]
    intro c hc
    obtain ⟨i, hi, rfl⟩ := List.mem_iff_getElem.mp hrow
    obtain ⟨j, hj, rfl⟩ := List.mem_iff_getElem.mp hc
    have h1 := h i j hi (by rw [List.getD_eq_getElem _ _ hi]; exact hj)
    rw [List.getD_eq_getElem _ _ hi, List.getD_eq_getElem _ _ hj] at h1
    exact h1

theorem CheckWin_congr_pointwise {b b' : Board}
    (hl : b.Cells.length = b'.Cells.length)
    (hrows : ∀ i : Nat, (b.Cells.getD i []).length = (b'.Cells.getD i []).length)
    (hm : ∀ x y : Int, (getCell b x y).IsMine = (getCell b' x y).IsMine)
    (hr : ∀ x y : Int, (getCell b x y).Revealed = (getCell b' x y).Revealed) :
    CheckWin b = CheckWin b' := by
  have key : CheckWin b = true ↔ CheckWin b' = true := by
    rw [CheckWin_eq_true_iff_getD, CheckWin_eq_true_iff_getD]
    constructor
    · intro h i j hi hj
      have h1 := h i j (by omega) (by rw [hrows i]; exact hj)
      rw [← getCell_natCast b i j, ← getCell_natCast b' i j] at *
      rw [← hm, ← hr]
      exact h1
    · intro h i j hi hj
      have h1 := h i j (by omega) (by rw [← hrows i]; exact hj)
      rw [← getCell_natCast b i j, ← getCell_natCast b' i j] at *
      rw [hm, hr]
      exact h1
  by_cases hb : CheckWin b = true
  · rw [hb, (key.mp hb).symm]
  · have hb2 : ¬ CheckWin b' = true := fun h => hb (key.mpr h)
    revert hb hb2
    cases CheckWin b <;> cases CheckWin b' <;> simp

/-- Boards that agree on everything observable: dimensions, shape, and
all cell fields except possibly `AdjMines` on mine cells. -/
def mineAdjEquiv (b b' : Board) : Prop :=
  b.Width = b'.Width ∧ b.Height = b'.Height ∧ b.Cells.length = b'.Cells.length ∧
  (∀ i : Nat, (b.Cells.getD i []).length = (b'.Cells.getD i []).length) ∧
  ∀ x y : Int, (getCell b x y).IsMine = (getCell b' x y).IsMine ∧
    (getCell b x y).Revealed = (getCell b' x y).Revealed ∧
    (getCell b x y).Flagged = (getCell b' x y).Flagged ∧
    ((getCell b x y).IsMine = false →
      (getCell b x y).AdjMines = (getCell b' x y).AdjMines)

theorem mineAdjEquiv_setRevealed {b b' : Board} (h : mineAdjEquiv b b') (x y : Int) :
    mineAdjEquiv (setRevealed b x y) (setRevealed b' x y) := by
  obtain ⟨hw, hh, hl, hrows, hpt⟩ := h
  have hsetB : setRevealed b x y =
      setCell b x y { getCell b x y with Revealed := true } := rfl
  have hsetB' : setRevealed b' x y =
      setCell b' x y { getCell b' x y with Revealed := true } := rfl
  refine ⟨hw, hh, ?_, ?_, ?_⟩
  · rw [hsetB, hsetB']
    show (b.Cells.set _ _).length = (b'.Cells.set _ _).length
    rw [List.length_set, List.length_set]
    exact hl
  · intro i
    rw [hsetB, hsetB']
    show ((b.Cells.set _ _).getD i []).length = ((b'.Cells.set _ _).getD i []).length
    rw [getD_set_row_length _ _ _ (by rw [List.length_set]; rfl),
      getD_set_row_length _ _ _ (by rw [List.length_set]; rfl)]
    exact hrows i
  · intro x' y'
    rw [hsetB, hsetB', getCell_setCell_ite, getCell_setCell_ite]
    have hrowlen : (getRow b y).length = (getRow b' y).length := hrows y.toNat
    by_cases hcb : y.toNat = y'.toNat ∧ y.toNat < b.Cells.length ∧
        x.toNat = x'.toNat ∧ x.toNat < (getRow b y).length
    · have hcb' : y.toNat = y'.toNat ∧ y.toNat < b'.Cells.length ∧
          x.toNat = x'.toNat ∧ x.toNat < (getRow b' y).length := by
        obtain ⟨h1, h2, h3, h4⟩ := hcb
        exact ⟨h1, by omega, h3, by omega⟩
      rw [if_pos hcb, if_pos hcb']
      obtain ⟨m1, _, f1, a1⟩ := hpt x y
      exact ⟨m1, rfl, f1, fun hm => a1 hm⟩
    · have hcb' : ¬ (y.toNat = y'.toNat ∧ y.toNat < b'.Cells.length ∧
          x.toNat = x'.toNat ∧ x.toNat < (getRow b' y).length) := by
        intro hcon
        obtain ⟨h1, h2, h3, h4⟩ := hcon
        exact hcb ⟨h1, by omega, h3, by omega⟩
      rw [if_neg hcb, if_neg hcb']
      exact hpt x' y'

theorem unrevealedCount_mineAdjEquiv {b b' : Board} (h : mineAdjEquiv b b') :
    unrevealedCount b = unrevealedCount b' := by
  unfold unrevealedCount
  rw [allPositions_congr h.1 h.2.1]
  refine List.countP_congr ?_
  intro p _
  rw [(h.2.2.2.2 p.1 p.2).2.1]

theorem revealFuel_mineAdjEquiv (f : Nat) :
    ∀ (b b' : Board) (x y : Int), mineAdjEquiv b b' →
      (revealFuel f b x y).2 = (revealFuel f b' x y).2 ∧
      mineAdjEquiv ((revealFuel f b x y).1) ((revealFuel f b' x y).1) := by
  induction f with
  | zero => intro b b' x y h; exact ⟨rfl, h⟩
  | succ f ih =>
    intro b b' x y h
    have hviff : isValidCell b x y ↔ isValidCell b' x y := by
      unfold isValidCell; rw [h.1, h.2.1]
    have hreve : (getCell b x y).Revealed = (getCell b' x y).Revealed :=
      (h.2.2.2.2 x y).2.1
    by_cases hc : ¬ isValidCell b x y ∨ (getCell b x y).Revealed
    · have hc' : ¬ isValidCell b' x y ∨ (getCell b' x y).Revealed := by
        rcases hc with h1 | h1
        · exact Or.inl (fun hv => h1 (hviff.mpr hv))
        · exact Or.inr (by rw [← hreve]; exact h1)
      rw [revealFuel, revealFuel, if_pos hc, if_pos hc']
      exact ⟨rfl, h⟩
    · have hc' : ¬ (¬ isValidCell b' x y ∨ (getCell b' x y).Revealed) := by
        intro hcon
        rcases hcon with h1 | h1
        · exact hc (Or.inl (fun hv => h1 (hviff.mp hv)))
        · exact hc (Or.inr (by rw [hreve]; exact h1))
      rw [revealFuel, revealFuel, if_neg hc, if_neg hc']
      simp only
      have h1 : mineAdjEquiv (setRevealed b x y) (setRevealed b' x y) :=
        mineAdjEquiv_setRevealed h x y
      have hmEq : (getCell (setRevealed b x y) x y).IsMine =
          (getCell (setRevealed b' x y) x y).IsMine := (h1.2.2.2.2 x y).1
      by_cases hm : (getCell (setRevealed b x y) x y).IsMine = true
      · have hm2 : (getCell (setRevealed b' x y) x y).IsMine = true := by
          rw [← hmEq]; exact hm
        rw [if_pos hm, if_pos hm2]
        exact ⟨rfl, h1⟩
      · have hm2 : ¬ (getCell (setRevealed b' x y) x y).IsMine = true := by
          rw [← hmEq]; exact hm
        rw [if_neg hm, if_neg hm2]
        have hmfalse : (getCell (setRevealed b x y) x y).IsMine = false := by
          revert hm; cases (getCell (setRevealed b x y) x y).IsMine <;> simp
        have haEq : (getCell (setRevealed b x y) x y).AdjMines =
            (getCell (setRevealed b' x y) x y).AdjMines :=
          (h1.2.2.2.2 x y).2.2.2 hmfalse
        by_cases h0 : (getCell (setRevealed b x y) x y).AdjMines = 0
        · have h02 : (getCell (setRevealed b' x y) x y).AdjMines = 0 := by
            rw [← haEq]; exact h0
          rw [if_pos h0, if_pos h02]
          have hfoldl : ∀ (l : List (Int × Int)) (acc acc' : Board),
              mineAdjEquiv acc acc' →
              mineAdjEquiv
                (l.foldl (fun a d => (revealFuel f a (x + d.1) (y + d.2)).1) acc)
                (l.foldl (fun a d => (revealFuel f a (x + d.1) (y + d.2)).1) acc') := by
            intro l
            induction l with
            | nil => intro acc acc' ha; exact ha
            | cons hd tl ihl =>
              intro acc acc' ha
              exact ihl _ _ ((ih acc acc' (x + hd.1) (y + hd.2) ha).2)
          exact ⟨rfl, hfoldl neighborOffsets _ _ h1⟩
        · have h02 : ¬ (getCell (setRevealed b' x y) x y).AdjMines = 0 := by
            rw [← haEq]; exact h0
          rw [if_neg h0, if_neg h02]
          exact ⟨rfl, h1⟩

theorem RevealCell_mineAdjEquiv {b b' : Board} (h : mineAdjEquiv b b') (x y : Int) :
    (RevealCell b x y).2 = (RevealCell b' x y).2 ∧
      mineAdjEquiv ((RevealCell b x y).1) ((RevealCell b' x y).1) := by
  unfold RevealCell
  rw [unrevealedCount_mineAdjEquiv h]
  exact revealFuel_mineAdjEquiv _ b b' x y h

theorem CheckWin_mineAdjEquiv {b b' : Board} (h : mineAdjEquiv b b') :
    CheckWin b = CheckWin b' :=
  CheckWin_congr_pointwise h.2.2.1 h.2.2.2.1
    (fun x y => (h.2.2.2.2 x y).1) (fun x y => (h.2.2.2.2 x y).2.1)

/-! ### Collapsing repeated writes to the same cell -/

theorem list_set_getElem_self {α : Type} (l : List α) (n : Nat) (h : n < l.length) :
    l.set n l[n] = l := by
  apply List.ext_getElem?
  intro i
  rw [List.getElem?_set]
  by_cases hni : n = i
  · subst hni
    rw [if_pos rfl, if_pos h, List.getElem?_eq_getElem h]
  · rw [if_neg hni]

theorem board_ext {b b' : Board} (hw : b.Width = b'.Width)
    (hh : b.Height = b'.Height) (hc : b.Cells = b'.Cells) : b = b' := by
  cases b
  cases b'
  congr 1

theorem setCell_setCell (b : Board) (x y : Int) (c c' : Cell) :
    setCell (setCell b x y c) x y c' = setCell b x y c' := by
  rcases Nat.lt_or_ge y.toNat b.Cells.length with hylt | hyge
  · refine board_ext rfl rfl ?_
    show (b.Cells.set y.toNat ((getRow b y).set x.toNat c)).set y.toNat
        ((getRow (setCell b x y c) y).set x.toNat c') =
      b.Cells.set y.toNat ((getRow b y).set x.toNat c')
    rw [getRow_setCell_self hylt, List.set_set, List.set_set]
  · rw [setCell_oob hyge, setCell_oob hyge]

theorem setCell_getCell_self (b : Board) (x y : Int) :
    setCell b x y (getCell b x y) = b := by
  rcases Nat.lt_or_ge y.toNat b.Cells.length with hylt | hyge
  · have hrowfix : (getRow b y).set x.toNat (getCell b x y) = getRow b y := by
      rcases Nat.lt_or_ge x.toNat (getRow b y).length with hxlt | hxge
      · have hgc : getCell b x y = (getRow b y)[x.toNat] := by
          unfold getCell
          exact List.getD_eq_getElem _ _ hxlt
        rw [hgc]
        exact list_set_getElem_self _ _ hxlt
      · exact List.set_eq_of_length_le hxge
    refine board_ext rfl rfl ?_
    show b.Cells.set y.toNat ((getRow b y).set x.toNat (getCell b x y)) = b.Cells
    rw [hrowfix, getRow_eq_getElem hylt, list_set_getElem_self _ _ hylt]
  · rw [setCell_oob hyge]

/-- Flagging leaves a board flag-equivalent to the original. -/
theorem flagEquiv_FlagCell (b : Board) (x y : Int) : flagEquiv b (FlagCell b x y) := by
  refine ⟨(FlagCell_Width b x y).symm, (FlagCell_Height b x y).symm, ?_, ?_, ?_⟩
  · unfold FlagCell
    split
    · rfl
    · show b.Cells.length = (b.Cells.set _ _).length
      rw [List.length_set]
  · intro i
    unfold FlagCell
    split
    · rfl
    · show (b.Cells.getD i []).length = ((b.Cells.set _ _).getD i []).length
      rw [getD_set_row_length _ _ _ (by rw [List.length_set]; rfl)]
  · intro x' y'
    obtain ⟨h1, h2, h3⟩ := FlagCell_frame b x y x' y'
    exact ⟨h1.symm, h2.symm, h3.symm⟩

/-! ### Idempotence of reveal -/

theorem RevealCell_idem (b : Board) (x y : Int) (hwf : WF b) :
    RevealCell ((RevealCell b x y).1) x y = ((RevealCell b x y).1, false) := by
  by_cases hv : isValidCell b x y
  · by_cases hr : (getCell b x y).Revealed = true
    · have h1 : RevealCell b x y = (b, false) := RevealCell_noop (Or.inr hr)
      rw [h1]
      exact RevealCell_noop (Or.inr hr)
    · have htarget : (getCell ((RevealCell b x y).1) x y).Revealed = true := by
        unfold RevealCell
        exact revealFuel_target _ b x y hwf hv (by omega)
      exact RevealCell_noop (Or.inr htarget)
  · have h1 : RevealCell b x y = (b, false) := RevealCell_noop (Or.inl hv)
    rw [h1]
    exact RevealCell_noop (Or.inl hv)

/-! ### Region cover in terms of the claim wording -/

theorem zero_no_mine_neighbor {b : Board} (hadj : adjCorrect b) {z q : Int × Int}
    (hz : zeroCell b z) (ha : chebAdj z q) (hq : isValidCell b q.1 q.2) :
    (getCell b q.1 q.2).IsMine = false := by
  by_cases hcon : (getCell b q.1 q.2).IsMine = true
  swap
  · revert hcon; cases (getCell b q.1 q.2).IsMine <;> simp
  obtain ⟨d, hd, hd0, rfl⟩ := ha
  exfalso
  have hcnt : (getCell b z.1 z.2).AdjMines = countAdjMines b z.1 z.2 :=
    hadj z ((mem_allPositions b z).mpr hz.1) hz.2.1
  have hzero : countAdjMines b z.1 z.2 = 0 := by rw [← hcnt]; exact hz.2.2
  have hpos : 0 < countAdjMines b z.1 z.2 := by
    unfold countAdjMines
    refine List.countP_pos_iff.mpr ⟨d, hd, ?_⟩
    simp only [Bool.and_eq_true]
    refine ⟨?_, ?_, ?_⟩
    · have hne : d.1 ≠ 0 ∨ d.2 ≠ 0 := by
        by_cases h1 : d.1 = 0
        · right; intro h2; exact hd0 (Prod.ext h1 h2)
        · left; exact h1
      rcases hne with h1 | h1 <;> simp [h1]
    · exact decide_eq_true hq
    · exact hcon
  omega

theorem regionCover_iff_border {b : Board} (hadj : adjCorrect b) {p q : Int × Int} :
    regionCover b p q ↔ ZReach b p q ∨
      (isValidCell b q.1 q.2 ∧ (getCell b q.1 q.2).IsMine = false ∧
        (getCell b q.1 q.2).AdjMines ≠ 0 ∧ ∃ z, ZReach b p z ∧ chebAdj z q) := by
  constructor
  · rintro (h | ⟨z, hz, hzq, hvq⟩)
    · exact Or.inl h
    · have hnm : (getCell b q.1 q.2).IsMine = false :=
        zero_no_mine_neighbor hadj (ZReach_zero hz) hzq hvq
      by_cases h0 : (getCell b q.1 q.2).AdjMines = 0
      · exact Or.inl (ZReach.step hz hzq ⟨hvq, hnm, h0⟩)
      · exact Or.inr ⟨hvq, hnm, h0, z, hz, hzq⟩
  · rintro (h | ⟨hvq, _, _, z, hz, hzq⟩)
    · exact Or.inl h
    · exact Or.inr ⟨z, hz, hzq, hvq⟩

theorem unrevealedCount_RevealCell_lt {b : Board} {x y : Int} (hwf : WF b)
    (hv : isValidCell b x y) (hnr : (getCell b x y).Revealed = false) :
    unrevealedCount ((RevealCell b x y).1) < unrevealedCount b := by
  have hdec := unrevealedCount_setRevealed hwf hv hnr
  have hcond : ¬ (¬ isValidCell b x y ∨ (getCell b x y).Revealed) := by
    push_neg
    exact ⟨hv, by rw [hnr]; exact Bool.false_ne_true⟩
  unfold RevealCell
  rw [revealFuel, if_neg hcond]
  simp only
  by_cases hm : (getCell (setRevealed b x y) x y).IsMine = true
  · rw [if_pos hm]
    show unrevealedCount (setRevealed b x y) < unrevealedCount b
    omega
  · rw [if_neg hm]
    by_cases h0 : (getCell (setRevealed b x y) x y).AdjMines = 0
    · rw [if_pos h0]
      show unrevealedCount (neighborOffsets.foldl
        (fun acc d => (revealFuel (unrevealedCount b) acc (x + d.1) (y + d.2)).1)
        (setRevealed b x y)) < unrevealedCount b
      have hfold : unrevealedCount (neighborOffsets.foldl
          (fun acc d => (revealFuel (unrevealedCount b) acc (x + d.1) (y + d.2)).1)
          (setRevealed b x y)) ≤ unrevealedCount (setRevealed b x y) := by
        refine foldl_pres
          (P := fun acc => unrevealedCount acc ≤ unrevealedCount (setRevealed b x y))
          _ _ ?_ _ le_rfl
        intro bd d _ hp
        exact le_trans (unrevealedCount_mono _ bd _ _) hp
      omega
    · rw [if_neg h0]
      show unrevealedCount (setRevealed b x y) < unrevealedCount b
      omega

theorem FlagCell_active {b : Board} {x y : Int} (hv : isValidCell b x y)
    (hnr : (getCell b x y).Revealed = false) :
    FlagCell b x y =
      setCell b x y { getCell b x y with Flagged := !(getCell b x y).Flagged } := by
  unfold FlagCell
  rw [if_neg (by push_neg; exact ⟨hv, by rw [hnr]; exact Bool.false_ne_true⟩)]

/-! ## The claims -/

/-- C1.  Flood-fill completeness: on any board reachable from a
constructed game (`NewBoard` followed by any sequence of operations),
revealing an in-bounds, unrevealed, safe cell with a zero
adjacent-mine count reveals exactly the maximal 8-connected region of
zero-count cells containing it plus the immediately bordering
nonzero-count cells, and marks no other cell revealed. -/
theorem flood_fill_completeness
    (shuffle : List (Int × Int) → List (Int × Int)) (w h m : Nat) (ops : List GameOp)
    (b : Board) (hb : b = applyOps (NewBoard shuffle w h m) ops) (x y : Int)
    (hv : isValidCell b x y) (hnr : (getCell b x y).Revealed = false)
    (hnm : (getCell b x y).IsMine = false) (h0 : (getCell b x y).AdjMines = 0) :
    ∀ q : Int × Int, isValidCell b q.1 q.2 →
      ((getCell ((RevealCell b x y).1) q.1 q.2).Revealed = true ↔
        (getCell b q.1 q.2).Revealed = true ∨ ZReach b (x, y) q ∨
          ((getCell b q.1 q.2).IsMine = false ∧ (getCell b q.1 q.2).AdjMines ≠ 0 ∧
            ∃ z, ZReach b (x, y) z ∧ chebAdj z q)) := by
  subst hb
  obtain ⟨hwf, hcl, hadj⟩ :=
    invariants_applyOps ops _ (invariants_NewBoard shuffle w h m)
  intro q hq
  rw [flood_fill_core hwf hcl hv ⟨hv, hnm, h0⟩ q hq, regionCover_iff_border hadj]
  constructor
  · rintro (h | h | ⟨_, h2, h3, h4⟩)
    · exact Or.inl h
    · exact Or.inr (Or.inl h)
    · exact Or.inr (Or.inr ⟨h2, h3, h4⟩)
  · rintro (h | h | ⟨h2, h3, h4⟩)
    · exact Or.inl h
    · exact Or.inr (Or.inl h)
    · exact Or.inr (Or.inr ⟨hq, h2, h3, h4⟩)

/-- C2.  For every grid built by `Construct(width, height,
requestedHazardCount)` with positive dimensions and any requested
count, the number of hazard cells is exactly
`min(requested, floor(width*height*5/9))` — for every shuffle whose
output is a permutation of the position list, which is all
`rand.Shuffle` guarantees. -/
theorem hazard_count_exact (shuffle : List (Int × Int) → List (Int × Int))
    (w h m : Nat) (hw : 0 < w) (hh : 0 < h)
    (hperm : (shuffle (allPositions (initBoard w h))).Perm
      (allPositions (initBoard w h))) :
    mineCount (NewBoard shuffle w h m) = min m (w * h * 5 / 9) :=
  mineCount_NewBoard shuffle w h m hperm

/-- C3.  After construction every non-hazard cell stores exactly the
number of hazard cells among its in-bounds Chebyshev-distance-1
neighbors (`countAdjMines`), and the value stored for hazard cells is
never read: boards differing only in the `AdjMines` fields of mine
cells are indistinguishable through `RevealCell` (hit flag and
revealed cells) and `CheckWin`. -/
theorem adjacency_counts_correct (shuffle : List (Int × Int) → List (Int × Int))
    (w h m : Nat) :
    adjCorrect (NewBoard shuffle w h m) ∧
    ∀ b b' : Board, mineAdjEquiv b b' →
      (∀ x y : Int, (RevealCell b x y).2 = (RevealCell b' x y).2 ∧
        ∀ x' y' : Int, (getCell ((RevealCell b x y).1) x' y').Revealed =
          (getCell ((RevealCell b' x y).1) x' y').Revealed) ∧
      CheckWin b = CheckWin b' := by
  refine ⟨adjCorrect_NewBoard shuffle w h m, ?_⟩
  intro b b' hab
  refine ⟨?_, CheckWin_mineAdjEquiv hab⟩
  intro x y
  obtain ⟨h1, h2⟩ := RevealCell_mineAdjEquiv hab x y
  exact ⟨h1, fun x' y' => (h2.2.2.2.2 x' y').2.1⟩

/-- C4.  `CheckWin` returns true iff every non-hazard cell is revealed;
the state of hazard cells is irrelevant. -/
theorem checkwin_iff_safe_revealed (b : Board) (hwf : WF b) :
    CheckWin b = true ↔ ∀ x y : Int, isValidCell b x y →
      (getCell b x y).IsMine = false → (getCell b x y).Revealed = true :=
  CheckWin_iff hwf

/-- C5.  Revealing an in-bounds, unrevealed hazard marks exactly that
cell revealed and returns true; the call returns true only in that
situation; and on a board with correct adjacency counts the cascade
never reveals a hazard other than the target itself. -/
theorem mine_reveal_exact (b : Board) (x y : Int) (hwf : WF b) :
    ((isValidCell b x y ∧ (getCell b x y).Revealed = false ∧
        (getCell b x y).IsMine = true) →
      RevealCell b x y = (setRevealed b x y, true)) ∧
    ((RevealCell b x y).2 = true ↔
      isValidCell b x y ∧ (getCell b x y).Revealed = false ∧
        (getCell b x y).IsMine = true) ∧
    (adjCorrect b → ∀ q : Int × Int, isValidCell b q.1 q.2 →
      (getCell b q.1 q.2).Revealed = false → q ≠ (x, y) →
      (getCell ((RevealCell b x y).1) q.1 q.2).Revealed = true →
      (getCell b q.1 q.2).IsMine = false) := by
  refine ⟨fun ⟨hv, hnr, hm⟩ => RevealCell_mine hwf hv hnr hm,
    RevealCell_bool_iff b x y, ?_⟩
  intro hadj q hq hqnr hqne hqrev
  have hsound := revealFuel_sound (unrevealedCount b + 1) b x y q.1 q.2 hq hqrev
  rcases hsound with h1 | ⟨_, h1⟩ | ⟨hz0, hcov⟩
  · rw [hqnr] at h1; exact Bool.noConfusion h1
  · exact absurd h1 hqne
  · rcases hcov with hreach | ⟨z, hz, hzq, hvq⟩
    · exact (ZReach_zero hreach).2.1
    · exact zero_no_mine_neighbor hadj (ZReach_zero hz) hzq hvq

/-- C6.  Reveal with out-of-bounds coordinates or on an
already-revealed cell returns false and leaves the grid unchanged, and
revealing twice at the same coordinates equals revealing once. -/
theorem reveal_noop_idempotent (b : Board) (x y : Int) (hwf : WF b) :
    ((¬ isValidCell b x y ∨ (getCell b x y).Revealed = true) →
      RevealCell b x y = (b, false)) ∧
    RevealCell ((RevealCell b x y).1) x y = ((RevealCell b x y).1, false) :=
  ⟨fun hc => RevealCell_noop hc, RevealCell_idem b x y hwf⟩

/-- C7.  The flood fill terminates: any fuel beyond the number of
unrevealed cells gives the same result (`RevealCell` is the fixed
point), and each effective reveal strictly decreases the number of
unrevealed cells. -/
theorem reveal_terminates (b : Board) (x y : Int) (hwf : WF b) :
    (∀ f : Nat, unrevealedCount b < f → revealFuel f b x y = RevealCell b x y) ∧
    (isValidCell b x y → (getCell b x y).Revealed = false →
      unrevealedCount ((RevealCell b x y).1) < unrevealedCount b) :=
  ⟨fun f hf => RevealCell_eq_revealFuel x y f hwf hf,
    fun hv hnr => unrevealedCount_RevealCell_lt hwf hv hnr⟩

/-- C8.  `Revealed` never reverts: during any play on a constructed
grid, a cell revealed at some point stays revealed after any further
sequence of Reveal/Flag/CheckWin operations. -/
theorem revealed_never_reverts (shuffle : List (Int × Int) → List (Int × Int))
    (w h m : Nat) (l1 l2 : List GameOp) (x y : Int)
    (hrev : (getCell (applyOps (NewBoard shuffle w h m) l1) x y).Revealed = true) :
    (getCell (applyOps (NewBoard shuffle w h m) (l1 ++ l2)) x y).Revealed = true := by
  rw [applyOps_append]
  exact revealed_mono_applyOps l2 _ x y hrev

/-- C9.  Flags do not interfere with reveal: boards differing only in
flags produce the same hit flag and the same revealed fields, and
reveal never modifies any flag. -/
theorem flags_noninterference (b b' : Board) (x y : Int) (h : flagEquiv b b') :
    (RevealCell b x y).2 = (RevealCell b' x y).2 ∧
    (∀ x' y' : Int, (getCell ((RevealCell b x y).1) x' y').Revealed =
      (getCell ((RevealCell b' x y).1) x' y').Revealed) ∧
    ∀ x' y' : Int, (getCell ((RevealCell b x y).1) x' y').Flagged =
      (getCell b x' y').Flagged := by
  obtain ⟨h1, h2⟩ := RevealCell_flagEquiv h x y
  exact ⟨h1, fun x' y' => (h2.2.2.2.2 x' y').2.2,
    fun x' y' => RevealCell_flags_unchanged b x y x' y'⟩

/-- C10.  Flag is a no-op out of bounds or on a revealed cell; on an
in-bounds unrevealed cell it negates exactly that cell's flag and
leaves every other cell unchanged, so flagging twice restores the
original grid. -/
theorem flag_toggle_frame (b : Board) (x y : Int) (hwf : WF b) :
    ((¬ isValidCell b x y ∨ (getCell b x y).Revealed = true) → FlagCell b x y = b) ∧
    (isValidCell b x y → (getCell b x y).Revealed = false →
      (getCell (FlagCell b x y) x y =
        { getCell b x y with Flagged := !(getCell b x y).Flagged }) ∧
      (∀ x' y' : Int, isValidCell b x' y' → (x', y') ≠ (x, y) →
        getCell (FlagCell b x y) x' y' = getCell b x' y') ∧
      FlagCell (FlagCell b x y) x y = b) := by
  refine ⟨fun hc => FlagCell_noop hc, ?_⟩
  intro hv hnr
  have hb1 := FlagCell_active hv hnr
  have hself : getCell (FlagCell b x y) x y =
      { getCell b x y with Flagged := !(getCell b x y).Flagged } := by
    rw [hb1]
    exact getCell_setCell_self _ hwf hv
  refine ⟨hself, ?_, ?_⟩
  · intro x' y' hv' hne
    rw [hb1]
    refine getCell_setCell_ne b _ ?_
    rintro ⟨hx, hy⟩
    obtain ⟨h1, h2⟩ := valid_eq_of_toNat hv hv' hx hy
    exact hne (Prod.ext h1.symm h2.symm)
  · have hv1 : isValidCell (FlagCell b x y) x y := by
      unfold isValidCell
      rw [FlagCell_Width, FlagCell_Height]
      exact hv
    have hr1 : (getCell (FlagCell b x y) x y).Revealed = false := by
      rw [(FlagCell_frame b x y x y).2.2]
      exact hnr
    rw [FlagCell_active hv1 hr1, hself, hb1, setCell_setCell]
    have hcell : ({ { getCell b x y with Flagged := !(getCell b x y).Flagged } with
        Flagged := !({ getCell b x y with
          Flagged := !(getCell b x y).Flagged }).Flagged } : Cell) = getCell b x y := by
      show ({ getCell b x y with
        Flagged := !(!(getCell b x y).Flagged) } : Cell) = getCell b x y
      rw [Bool.not_not]
    rw [hcell, setCell_getCell_self]

/-! ## Concrete witnesses -/

/-- C1 witness: a fresh 2-by-2 board with no mines; revealing `(0,0)`
floods the whole grid. -/
theorem flood_fill_completeness_witness :
    (NewBoard id 2 2 0 = applyOps (NewBoard id 2 2 0) []) ∧
    isValidCell (NewBoard id 2 2 0) 0 0 ∧
    (getCell (NewBoard id 2 2 0) 0 0).Revealed = false ∧
    (getCell (NewBoard id 2 2 0) 0 0).IsMine = false ∧
    (getCell (NewBoard id 2 2 0) 0 0).AdjMines = 0 ∧
    ∀ q : Int × Int, isValidCell (NewBoard id 2 2 0) q.1 q.2 →
      ((getCell ((RevealCell (NewBoard id 2 2 0) 0 0).1) q.1 q.2).Revealed = true ↔
        (getCell (NewBoard id 2 2 0) q.1 q.2).Revealed = true ∨
          ZReach (NewBoard id 2 2 0) (0, 0) q ∨
          ((getCell (NewBoard id 2 2 0) q.1 q.2).IsMine = false ∧
            (getCell (NewBoard id 2 2 0) q.1 q.2).AdjMines ≠ 0 ∧
            ∃ z, ZReach (NewBoard id 2 2 0) (0, 0) z ∧ chebAdj z q)) :=
  ⟨rfl, by decide, by decide, by decide, by decide,
    flood_fill_completeness id 2 2 0 [] (NewBoard id 2 2 0) rfl 0 0
      (by decide) (by decide) (by decide) (by decide)⟩

/-- C2 witness: the reference 3-by-3 session with 5 requested mines. -/
theorem hazard_count_exact_witness :
    0 < 3 ∧ 0 < 3 ∧
    (id (allPositions (initBoard 3 3))).Perm (allPositions (initBoard 3 3)) ∧
    mineCount (NewBoard id 3 3 5) = min 5 (3 * 3 * 5 / 9) :=
  ⟨by decide, by decide, List.Perm.refl _,
    hazard_count_exact id 3 3 5 (by decide) (by decide) (List.Perm.refl _)⟩

/-- C3 witness: adjacency correctness of the reference board, and the
noninterference conclusion instantiated at it. -/
theorem adjacency_counts_correct_witness :
    adjCorrect (NewBoard id 3 3 5) ∧
    mineAdjEquiv (NewBoard id 3 3 5) (NewBoard id 3 3 5) ∧
    ((∀ x y : Int, (RevealCell (NewBoard id 3 3 5) x y).2 =
        (RevealCell (NewBoard id 3 3 5) x y).2 ∧
      ∀ x' y' : Int,
        (getCell ((RevealCell (NewBoard id 3 3 5) x y).1) x' y').Revealed =
        (getCell ((RevealCell (NewBoard id 3 3 5) x y).1) x' y').Revealed) ∧
      CheckWin (NewBoard id 3 3 5) = CheckWin (NewBoard id 3 3 5)) :=
  ⟨(adjacency_counts_correct id 3 3 5).1,
    ⟨rfl, rfl, rfl, fun _ => rfl, fun _ _ => ⟨rfl, rfl, rfl, fun _ => rfl⟩⟩,
    (adjacency_counts_correct id 3 3 5).2 _ _
      ⟨rfl, rfl, rfl, fun _ => rfl, fun _ _ => ⟨rfl, rfl, rfl, fun _ => rfl⟩⟩⟩

/-- C4 witness: the 1-by-1 scenario board. -/
theorem checkwin_iff_safe_revealed_witness :
    WF (NewBoard id 1 1 0) ∧
    (CheckWin (NewBoard id 1 1 0) = true ↔ ∀ x y : Int,
      isValidCell (NewBoard id 1 1 0) x y →
      (getCell (NewBoard id 1 1 0) x y).IsMine = false →
      (getCell (NewBoard id 1 1 0) x y).Revealed = true) :=
  ⟨by decide, checkwin_iff_safe_revealed (NewBoard id 1 1 0) (by decide)⟩

/-- C5 witness: on the reference board `(0,0)` is a mine. -/
theorem mine_reveal_exact_witness :
    WF (NewBoard id 3 3 5) ∧
    (((isValidCell (NewBoard id 3 3 5) 0 0 ∧
        (getCell (NewBoard id 3 3 5) 0 0).Revealed = false ∧
        (getCell (NewBoard id 3 3 5) 0 0).IsMine = true) →
      RevealCell (NewBoard id 3 3 5) 0 0 =
        (setRevealed (NewBoard id 3 3 5) 0 0, true)) ∧
    ((RevealCell (NewBoard id 3 3 5) 0 0).2 = true ↔
      isValidCell (NewBoard id 3 3 5) 0 0 ∧
        (getCell (NewBoard id 3 3 5) 0 0).Revealed = false ∧
        (getCell (NewBoard id 3 3 5) 0 0).IsMine = true) ∧
    (adjCorrect (NewBoard id 3 3 5) → ∀ q : Int × Int,
      isValidCell (NewBoard id 3 3 5) q.1 q.2 →
      (getCell (NewBoard id 3 3 5) q.1 q.2).Revealed = false → q ≠ (0, 0) →
      (getCell ((RevealCell (NewBoard id 3 3 5) 0 0).1) q.1 q.2).Revealed = true →
      (getCell (NewBoard id 3 3 5) q.1 q.2).IsMine = false)) :=
  ⟨by decide, mine_reveal_exact (NewBoard id 3 3 5) 0 0 (by decide)⟩

/-- C6 witness: the 2-by-2 mine-free board. -/
theorem reveal_noop_idempotent_witness :
    WF (NewBoard id 2 2 0) ∧
    (((¬ isValidCell (NewBoard id 2 2 0) 0 0 ∨
        (getCell (NewBoard id 2 2 0) 0 0).Revealed = true) →
      RevealCell (NewBoard id 2 2 0) 0 0 = (NewBoard id 2 2 0, false)) ∧
    RevealCell ((RevealCell (NewBoard id 2 2 0) 0 0).1) 0 0 =
      ((RevealCell (NewBoard id 2 2 0) 0 0).1, false)) :=
  ⟨by decide, reveal_noop_idempotent (NewBoard id 2 2 0) 0 0 (by decide)⟩

/-- C7 witness: the 2-by-2 mine-free board. -/
theorem reveal_terminates_witness :
    WF (NewBoard id 2 2 0) ∧
    ((∀ f : Nat, unrevealedCount (NewBoard id 2 2 0) < f →
      revealFuel f (NewBoard id 2 2 0) 0 0 = RevealCell (NewBoard id 2 2 0) 0 0) ∧
    (isValidCell (NewBoard id 2 2 0) 0 0 →
      (getCell (NewBoard id 2 2 0) 0 0).Revealed = false →
      unrevealedCount ((RevealCell (NewBoard id 2 2 0) 0 0).1) <
        unrevealedCount (NewBoard id 2 2 0))) :=
  ⟨by decide, reveal_terminates (NewBoard id 2 2 0) 0 0 (by decide)⟩

/-- C8 witness: reveal the single cell of a 1-by-1 board, then flag and
check; the cell stays revealed. -/
theorem revealed_never_reverts_witness :
    (getCell (applyOps (NewBoard id 1 1 0) [GameOp.reveal 0 0]) 0 0).Revealed = true ∧
    (getCell (applyOps (NewBoard id 1 1 0)
      ([GameOp.reveal 0 0] ++ [GameOp.flag 0 0, GameOp.checkWin])) 0 0).Revealed
      = true :=
  ⟨by decide, revealed_never_reverts id 1 1 0 [GameOp.reveal 0 0]
    [GameOp.flag 0 0, GameOp.checkWin] 0 0 (by decide)⟩

/-- C9 witness: the 2-by-2 board with and without a flag at `(0,0)`;
revealing `(1,1)` behaves identically on both. -/
theorem flags_noninterference_witness :
    flagEquiv (NewBoard id 2 2 0) (FlagCell (NewBoard id 2 2 0) 0 0) ∧
    ((RevealCell (NewBoard id 2 2 0) 1 1).2 =
      (RevealCell (FlagCell (NewBoard id 2 2 0) 0 0) 1 1).2 ∧
    (∀ x' y' : Int,
      (getCell ((RevealCell (NewBoard id 2 2 0) 1 1).1) x' y').Revealed =
      (getCell ((RevealCell (FlagCell (NewBoard id 2 2 0) 0 0) 1 1).1) x' y').Revealed) ∧
    ∀ x' y' : Int,
      (getCell ((RevealCell (NewBoard id 2 2 0) 1 1).1) x' y').Flagged =
      (getCell (NewBoard id 2 2 0) x' y').Flagged) :=
  ⟨flagEquiv_FlagCell (NewBoard id 2 2 0) 0 0,
    flags_noninterference (NewBoard id 2 2 0) (FlagCell (NewBoard id 2 2 0) 0 0) 1 1
      (flagEquiv_FlagCell (NewBoard id 2 2 0) 0 0)⟩

/-- C10 witness: the 2-by-2 mine-free board, flag at `(0,0)`. -/
theorem flag_toggle_frame_witness :
    WF (NewBoard id 2 2 0) ∧
    (((¬ isValidCell (NewBoard id 2 2 0) 0 0 ∨
        (getCell (NewBoard id 2 2 0) 0 0).Revealed = true) →
      FlagCell (NewBoard id 2 2 0) 0 0 = NewBoard id 2 2 0) ∧
    (isValidCell (NewBoard id 2 2 0) 0 0 →
      (getCell (NewBoard id 2 2 0) 0 0).Revealed = false →
      (getCell (FlagCell (NewBoard id 2 2 0) 0 0) 0 0 =
        { getCell (NewBoard id 2 2 0) 0 0 with
          Flagged := !(getCell (NewBoard id 2 2 0) 0 0).Flagged }) ∧
      (∀ x' y' : Int, isValidCell (NewBoard id 2 2 0) x' y' → (x', y') ≠ (0, 0) →
        getCell (FlagCell (NewBoard id 2 2 0) 0 0) x' y' =
          getCell (NewBoard id 2 2 0) x' y') ∧
      FlagCell (FlagCell (NewBoard id 2 2 0) 0 0) 0 0 = NewBoard id 2 2 0)) :=
  ⟨by decide, flag_toggle_frame (NewBoard id 2 2 0) 0 0 (by decide)⟩

end Mine
